import Mathlib

/-!
Verification development for the resource-planner backend.

Shallow embedding of the synchronization / reconciliation core:
* `extractTextFromADF` — plain-text extraction from the tracker's
  rich-document format (src/routes/jiraIntegration.ts, lines 116-150);
* `validateStoryPoints` — story-point normalisation
  (src/routes/jiraIntegration.ts, lines 84-113);
* `extractSprintName` / `syncMatchSprint` — the sprint matcher
  (src/routes/jiraIntegration.ts, lines 1413-1502);
* the batch sprint route `POST /api/sprints/batch` with its regeneration
  guard, validation and create/update/skip logic (src/routes/sprints.ts);
* the epic deduplication pass of `GET /api/work-items`
  (src/routes/workItems.ts, lines 43-103).

JavaScript numbers are modelled as `JSNum` (a rational together with the
special values `nan`, `posInf`, `negInf`); machine timestamps are `ℤ`
milliseconds; the relational store is a list of records plus an id counter.
-/

namespace ResourcePlanner

/-! ## JavaScript number model -/

/-- A JavaScript `number`: a rational, or one of the special values
`NaN`, `Infinity`, `-Infinity`.  The source never performs arithmetic on
story points (only comparisons, `Math.min`, `Math.max`, `parseFloat`),
so rationals model the float values exactly on every path used. -/
inductive JSNum where
  | nan
  | posInf
  | negInf
  | num (q : ℚ)
deriving DecidableEq, Repr

/-- JavaScript `a > b` for numbers: any comparison with `NaN` is false. -/
def JSNum.gt : JSNum → JSNum → Bool
  | .nan, _ => false
  | _, .nan => false
  | .posInf, .posInf => false
  | .posInf, _ => true
  | _, .posInf => false
  | .negInf, _ => false
  | .num _, .negInf => true
  | .num a, .num b => a > b

/-- JavaScript `Math.min`: `NaN` absorbs, `-Infinity` dominates. -/
def JSNum.jsMin : JSNum → JSNum → JSNum
  | .nan, _ => .nan
  | _, .nan => .nan
  | .negInf, _ => .negInf
  | _, .negInf => .negInf
  | .posInf, b => b
  | a, .posInf => a
  | .num a, .num b => .num (min a b)

/-- JavaScript `Math.max`: `NaN` absorbs, `Infinity` dominates. -/
def JSNum.jsMax : JSNum → JSNum → JSNum
  | .nan, _ => .nan
  | _, .nan => .nan
  | .posInf, _ => .posInf
  | _, .posInf => .posInf
  | .negInf, b => b
  | a, .negInf => a
  | .num a, .num b => .num (max a b)

/-- JavaScript `String.prototype.trim`: strip whitespace from both ends.
(List-based so that the kernel can evaluate it on concrete strings.) -/
def jsTrim (s : String) : String :=
  String.mk (((s.toList.dropWhile Char.isWhitespace).reverse.dropWhile Char.isWhitespace).reverse)

/-- ASCII lower-casing of one character, as `toLowerCase` acts on the
ASCII names occurring here. -/
def charLower (c : Char) : Char :=
  if 'A' ≤ c ∧ c ≤ 'Z' then Char.ofNat (c.toNat + 32) else c

/-- JavaScript `String.prototype.toLowerCase` (ASCII fragment). -/
def jsToLower (s : String) : String := String.mk (s.toList.map charLower)

/-- Does `needle` occur as a contiguous run inside `hay`?  (JavaScript
`hay.includes(needle)`, Prisma `contains`.) -/
def listContainsSub (needle : List Char) : List Char → Bool
  | [] => needle.isEmpty
  | c :: rest => needle.isPrefixOf (c :: rest) || listContainsSub needle rest

/-- JavaScript `hay.includes(needle)`. -/
def jsIncludes (hay needle : String) : Bool :=
  listContainsSub needle.toList hay.toList

/-- Value of a digit string, most significant first. -/
def digitsVal (ds : List Char) : ℕ :=
  ds.foldl (fun a c => 10 * a + (c.toNat - 48)) 0

/-- `10 ^ z` over ℚ for an integer exponent. -/
def pow10 : ℤ → ℚ
  | .ofNat n => (10 : ℚ) ^ n
  | .negSucc n => 1 / (10 : ℚ) ^ (n + 1)

/-- JavaScript `parseFloat` on an already-trimmed string: optional sign,
then `Infinity`, or decimal digits with optional fraction and optional
exponent; the longest valid numeric prefix is used and trailing garbage
is ignored; if no digits can be consumed the result is `NaN`. -/
def parseFloat (s : String) : JSNum :=
  let cs := s.toList
  let sgnNeg : Bool := match cs with
    | '-' :: _ => true
    | _ => false
  let cs1 : List Char := match cs with
    | '-' :: r => r
    | '+' :: r => r
    | r => r
  if ("Infinity".toList).isPrefixOf cs1 then
    (if sgnNeg then .negInf else .posInf)
  else
    let ip := cs1.takeWhile Char.isDigit
    let r1 := cs1.dropWhile Char.isDigit
    let fp : List Char := match r1 with
      | '.' :: r => r.takeWhile Char.isDigit
      | _ => []
    let r2 : List Char := match r1 with
      | '.' :: r => r.dropWhile Char.isDigit
      | _ => r1
    if ip.isEmpty && fp.isEmpty then .nan
    else
      let mant : ℚ :=
        (if sgnNeg then (-1 : ℚ) else 1) *
          ((digitsVal ip : ℚ) + (digitsVal fp : ℚ) / (10 : ℚ) ^ fp.length)
      let expV : ℤ := match r2 with
        | e :: r =>
          if e = 'e' ∨ e = 'E' then
            let esgnNeg : Bool := match r with
              | '-' :: _ => true
              | _ => false
            let r3 : List Char := match r with
              | '-' :: rr => rr
              | '+' :: rr => rr
              | rr => rr
            let ed := r3.takeWhile Char.isDigit
            if ed.isEmpty then 0
            else (if esgnNeg then -(digitsVal ed : ℤ) else (digitsVal ed : ℤ))
          else 0
        | [] => 0
      .num (mant * pow10 expV)

/-- A JavaScript value as it reaches `validateStoryPoints` (`any`-typed):
`null`, `undefined`, a string, a number, or anything else (object,
boolean, …). -/
inductive JSVal where
  | vNull
  | vUndefined
  | vStr (s : String)
  | vNum (x : JSNum)
  | vOther
deriving DecidableEq, Repr

/-- `validateStoryPoints` (src/routes/jiraIntegration.ts, lines 84-113):
`null`/`undefined`/`"None"`/`""` → 1; strings are trimmed and parsed,
`NaN` parses → 1; non-string non-number → 1; a value `> 100` → 1;
otherwise `Math.max(0.5, Math.min(points, 20))`. -/
def validateStoryPoints (value : JSVal) : JSNum :=
  match value with
  | .vNull => .num 1
  | .vUndefined => .num 1
  | .vStr s =>
    if s = "None" ∨ s = "" then .num 1
    else
      match parseFloat (jsTrim s) with
      | .nan => .num 1
      | p =>
        if p.gt (.num 100) then .num 1
        else JSNum.jsMax (.num (1/2)) (JSNum.jsMin p (.num 20))
  | .vNum p =>
    if p.gt (.num 100) then .num 1
    else JSNum.jsMax (.num (1/2)) (JSNum.jsMin p (.num 20))
  | .vOther => .num 1

/-- The output is an honest story-point value in `[0.5, 20]`. -/
def inStoryRange (x : JSNum) : Prop :=
  ∃ q : ℚ, x = .num q ∧ 1/2 ≤ q ∧ q ≤ 20

instance : DecidablePred inStoryRange := fun x =>
  match x with
  | .nan => .isFalse (by rintro ⟨q, h, -⟩; cases h)
  | .posInf => .isFalse (by rintro ⟨q, h, -⟩; cases h)
  | .negInf => .isFalse (by rintro ⟨q, h, -⟩; cases h)
  | .num q =>
    if h : 1/2 ≤ q ∧ q ≤ 20 then .isTrue ⟨q, rfl, h.1, h.2⟩
    else .isFalse (by rintro ⟨q', hq', h1, h2⟩; cases hq'; exact h ⟨h1, h2⟩)

/-! ## Rich-document (ADF) text extraction -/

/-- An input to `extractTextFromADF` (`any`-typed in the source): a falsy
value (`null`/`undefined`), a bare string, or an object with optional
`type`, `text` and `content` fields; `content`, when present, is an
array of further such values. -/
inductive ADF where
  | nullv
  | strv (s : String)
  | obj (type : Option String) (text : Option String) (content : Option (List ADF))
deriving Repr

/-- Number of nodes of an ADF value. -/
def ADF.size : ADF → ℕ
  | .nullv => 1
  | .strv _ => 1
  | .obj _ _ none => 1
  | .obj _ _ (some l) => 1 + ((l.attach.map fun c => ADF.size c.1).sum)
decreasing_by
  have := List.sizeOf_lt_of_mem c.2
  simp only [ADF.obj.sizeOf_spec, Option.some.sizeOf_spec]
  omega

/-- `extractTextFromADF` (src/routes/jiraIntegration.ts, lines 116-150).
The source checks, in order: falsy → `''`; string → itself; **any**
object whose `content` is an array → children joined with `'\n'` (line
123-125, so the later `paragraph`/`listItem`, `bulletList`/`orderedList`
and generic-container branches, which re-test `content` for an array,
can never fire); `type === 'text'` → `text || ''`; otherwise `''`. -/
def extractTextFromADF : ADF → String
  | .nullv => ""
  | .strv s => s
  | .obj ty tx ct =>
    match ct with
    | some children =>
      String.intercalate "\n" (children.attach.map fun c => extractTextFromADF c.1)
    | none =>
      -- the paragraph/listItem and list branches re-check `content`
      -- for an array and fall through here
      if ty = some "text" then
        match tx with
        | some t => t          -- `adfContent.text || ''` (a falsy "" stays "")
        | none => ""
      else ""
decreasing_by
  have := List.sizeOf_lt_of_mem c.2
  simp only [ADF.obj.sizeOf_spec, Option.some.sizeOf_spec]
  omega

/-- Fuel-indexed variant of the same recursion: each recursive step
consumes one unit of fuel and exhaustion yields `none`.  Running out of
fuel is the only `none` case, so `some` results certify termination. -/
def extractTextFuel : ℕ → ADF → Option String
  | 0, _ => none
  | _ + 1, .nullv => some ""
  | _ + 1, .strv s => some s
  | n + 1, .obj ty tx ct =>
    match ct with
    | some children =>
      (extractEachFuel n children).map (String.intercalate "\n")
    | none =>
      some (if ty = some "text" then
        match tx with
        | some t => t
        | none => ""
      else "")
where
  /-- Fuelled traversal of a `content` array. -/
  extractEachFuel : ℕ → List ADF → Option (List String)
  | 0, _ => none
  | _ + 1, [] => some []
  | n + 1, x :: xs =>
    match extractTextFuel n x, extractEachFuel n xs with
    | some s, some ss => some (s :: ss)
    | _, _ => none

/-- Fuel sufficient to fully extract an ADF value. -/
def fuelADF : ADF → ℕ
  | .nullv => 1
  | .strv _ => 1
  | .obj _ _ none => 1
  | .obj _ _ (some l) => fuelList l + 1
where
  /-- Fuel sufficient to traverse a `content` array. -/
  fuelList : List ADF → ℕ
  | [] => 1
  | x :: xs => max (fuelADF x) (fuelList xs) + 1

/-! ## Sprint matcher (`syncCompletedTicketToSprint`, strategy part) -/

/-- A candidate past-sprint record as the matcher sees it (id, name and
date window; timestamps in milliseconds). -/
structure PastSprint where
  id : ℕ
  name : String
  startDate : ℤ
  endDate : ℤ
deriving DecidableEq, Repr

/-- One entry of the ticket's sprint-association field
(`customfield_10020`): a semi-structured string, an object carrying
optional `name` / `sprintName` fields, or some other value. -/
inductive SprintFieldVal where
  | str (s : String)
  | objv (name : Option String) (sprintName : Option String)
  | othr
deriving DecidableEq, Repr

/-- First match of the regex `name=([^,]+)` in a character list: the
earliest position where `name=` is followed by at least one non-comma
character; the capture is the maximal run of non-comma characters. -/
def nameEqCapture : List Char → Option (List Char)
  | [] => none
  | c :: rest =>
    if ("name=".toList).isPrefixOf (c :: rest) then
      let cap := ((c :: rest).drop 5).takeWhile (fun ch => ch ≠ ',')
      if cap.isEmpty then nameEqCapture rest else some cap
    else nameEqCapture rest

/-- JavaScript truthiness filter for an optional string (`undefined`,
`null` and `""` are falsy). -/
def truthyStr : Option String → Option String
  | none => none
  | some s => if s = "" then none else some s

/-- `extractSprintName` (src/routes/jiraIntegration.ts, lines 1413-1441):
for a string, capture of `name=([^,]+)`; for an object,
`name || sprintName`; a truthy result is trimmed and returned, anything
else gives `null`. -/
def extractSprintName : SprintFieldVal → Option String
  | .str s => (truthyStr ((nameEqCapture s.toList).map String.mk)).map jsTrim
  | .objv nm snm =>
    (truthyStr (match truthyStr nm with
      | some v => some v
      | none => snm)).map jsTrim
  | .othr => none

/-- The completed-ticket fields the matcher consults: the
`customfield_10020` sprint associations and the `updated` timestamp. -/
structure Ticket where
  sprints : List SprintFieldVal
  updated : ℤ
deriving DecidableEq, Repr

/-- The single name predicate of strategy 1 (lines 1463-1467): exact
case-insensitive equality, OR the candidate name contains the extracted
name, OR the extracted name contains the candidate name. -/
def sprintNameMatches (sprintName : String) (sp : PastSprint) : Bool :=
  jsToLower sp.name = jsToLower sprintName ||
  jsIncludes (jsToLower sp.name) (jsToLower sprintName) ||
  jsIncludes (jsToLower sprintName) (jsToLower sp.name)

/-- Strategy 2's window test (lines 1479-1483): the ticket's `updated`
timestamp lies in the candidate's `[startDate, endDate]` inclusive. -/
def inSprintWindow (t : Ticket) (sp : PastSprint) : Bool :=
  sp.startDate ≤ t.updated && t.updated ≤ sp.endDate

/-- The matching cascade of `syncCompletedTicketToSprint`
(src/routes/jiraIntegration.ts, lines 1455-1502):
1. if the sprint field is non-empty, extract a name from its *last*
   entry and, when truthy, take the **first** candidate satisfying
   `sprintNameMatches` (a single `find` whose predicate is the
   disjunction of equality and the two containments);
2. otherwise the first candidate whose window contains `updated`;
3. otherwise the last element of `pastSprints`;
4. `none` (reported as `no_sprint_found`) only when no candidate exists. -/
def syncMatchSprint (t : Ticket) (pastSprints : List PastSprint) : Option PastSprint :=
  let target1 : Option PastSprint :=
    match t.sprints.getLast? with
    | none => none
    | some lastSprint =>
      match extractSprintName lastSprint with
      | none => none
      | some nm =>
        if nm = "" then none
        else pastSprints.find? (sprintNameMatches nm)
  match target1 with
  | some s => some s
  | none =>
    match pastSprints.find? (inSprintWindow t) with
    | some s => some s
    | none => pastSprints.getLast?

/-- The terminal classification of a ticket (transient sync result). -/
inductive MatchOutcome where
  | matched (sp : PastSprint)
  | noSprintFound
deriving DecidableEq, Repr

/-- Classification produced for a ticket: `no_sprint_found` is a result,
not an error (lines 1496-1502). -/
def classifyTicket (t : Ticket) (pastSprints : List PastSprint) : MatchOutcome :=
  match syncMatchSprint t pastSprints with
  | some sp => .matched sp
  | none => .noSprintFound

/-! ## Batch sprint route (`POST /api/sprints/batch`)

Embedding of the current revision of `src/routes/sprints.ts` — the one
with the in-memory `regenerationInProgress` flag, the 5-second cooldown,
the regeneration-mode duplicate re-check and the merge-mode fuzzy-name
skip.  (An earlier revision, still visible in the checked-in compiled
`dist/routes/sprints.js`, deleted only name-matching or date-overlapping
sprints during regeneration; the current route deletes *all* non-archived
sprints.) -/

/-- A persisted sprint row. -/
structure Sprint where
  id : ℕ
  name : String
  startDate : ℤ
  endDate : ℤ
  plannedVelocity : ℚ
  actualVelocity : Option ℚ
  archived : Bool
deriving DecidableEq, Repr

/-- The sprint table: rows in insertion order plus the id sequence. -/
structure Store where
  sprints : List Sprint
  nextId : ℕ
deriving DecidableEq, Repr

/-- One element of the request's `sprints` array; every field can be
absent.  A `none` date stands for a missing/empty date string; a
velocity of `some 0` is falsy in the `!plannedVelocity` check just like
an absent one. -/
structure SprintData where
  name : Option String
  startDate : Option ℤ
  endDate : Option ℤ
  plannedVelocity : Option ℚ
  actualVelocity : Option ℚ
deriving DecidableEq, Repr

/-- The required-field check of line 201 (`!name || !startDate ||
!endDate || !plannedVelocity`): returns the validated fields, or `none`
when some field is missing/falsy. -/
def getValid (d : SprintData) : Option (String × ℤ × ℤ × ℚ) :=
  match d.name, d.startDate, d.endDate, d.plannedVelocity with
  | some n, some sd, some ed, some pv =>
    if n = "" ∨ pv = 0 then none else some (n, sd, ed, pv)
  | _, _, _, _ => none

/-- `${name || 'unnamed'}` of the validation error message. -/
def jsNameOrUnnamed (d : SprintData) : String :=
  match d.name with
  | some n => if n = "" then "unnamed" else n
  | none => "unnamed"

/-- The message of the `Error` thrown at line 202. -/
def missingMsg (d : SprintData) : String :=
  "Missing required fields for sprint: " ++ jsNameOrUnnamed d

/-- `tx.sprint.deleteMany({ where: { archived: false } })` (lines
187-191): the regeneration step clears every non-archived sprint. -/
def clearNonArchived (st : Store) : Store :=
  { st with sprints := st.sprints.filter (·.archived) }

/-- `tx.sprint.findFirst({ where: { name, archived: false } })`. -/
def findActiveByName (st : Store) (n : String) : Option Sprint :=
  st.sprints.find? (fun s => s.name = n && !s.archived)

/-- `tx.sprint.findFirst({ where: { name, startDate, endDate,
archived: false } })` (lines 239-247). -/
def findActiveByNameDates (st : Store) (n : String) (sd ed : ℤ) : Option Sprint :=
  st.sprints.find? (fun s => s.name = n && s.startDate = sd && s.endDate = ed && !s.archived)

/-- `tx.sprint.findMany({ where: { name: { contains: name }, archived:
false } })` (lines 251-258). -/
def findSimilarActive (st : Store) (n : String) : List Sprint :=
  st.sprints.filter (fun s => jsIncludes s.name n && !s.archived)

/-- `tx.sprint.create` with the request data; `archived` defaults to
`false` and the row receives the next id. -/
def createSprint (st : Store) (n : String) (sd ed : ℤ) (pv : ℚ) (av : Option ℚ) :
    Sprint × Store :=
  let sp : Sprint := ⟨st.nextId, n, sd, ed, pv, av, false⟩
  (sp, ⟨st.sprints ++ [sp], st.nextId + 1⟩)

/-- The `data` of the merge-mode `tx.sprint.update` (lines 276-282):
planned velocity always, actual velocity only when supplied. -/
def applyVelocityUpdate (sp : Sprint) (pv : ℚ) (av : Option ℚ) : Sprint :=
  { sp with
    plannedVelocity := pv
    actualVelocity := match av with
      | some a => some a
      | none => sp.actualVelocity }

/-- `tx.sprint.update({ where: { id }, data: ... })`. -/
def updateSprintVelocity (st : Store) (sid : ℕ) (pv : ℚ) (av : Option ℚ) : Store :=
  { st with
    sprints := st.sprints.map (fun s => if s.id = sid then applyVelocityUpdate s pv av else s) }

/-- The per-definition loop of the batch transaction (lines 198-299),
threading the transactional store and accumulating `updatedSprints`.
Regeneration mode: re-check for a live sprint with the same name and
skip creation if found (lines 206-227).  Merge mode: exact name, then
name+dates, then fuzzy containment — on fuzzy matches without an exact
match the definition is skipped (`continue`); found → velocity update,
not found → create (lines 229-297). -/
def runDefs (isRegen : Bool) (tx : Store) (acc : List Sprint) :
    List SprintData → Except String (Store × List Sprint)
  | [] => .ok (tx, acc.reverse)
  | d :: rest =>
    match getValid d with
    | none => .error (missingMsg d)
    | some (n, sd, ed, pv) =>
      if isRegen then
        match findActiveByName tx n with
        | some existingDuplicate => runDefs isRegen tx (existingDuplicate :: acc) rest
        | none =>
          let (sp, tx') := createSprint tx n sd ed pv d.actualVelocity
          runDefs isRegen tx' (sp :: acc) rest
      else
        let exact := findActiveByName tx n
        let byDates := match exact with
          | some e => some e
          | none => findActiveByNameDates tx n sd ed
        match byDates with
        | some e =>
          let tx' := updateSprintVelocity tx e.id pv d.actualVelocity
          runDefs isRegen tx' (applyVelocityUpdate e pv d.actualVelocity :: acc) rest
        | none =>
          let similar := findSimilarActive tx n
          if similar.isEmpty then
            let (sp, tx') := createSprint tx n sd ed pv d.actualVelocity
            runDefs isRegen tx' (sp :: acc) rest
          else
            match similar.find? (fun s => s.name = n) with
            | some e =>
              let tx' := updateSprintVelocity tx e.id pv d.actualVelocity
              runDefs isRegen tx' (applyVelocityUpdate e pv d.actualVelocity :: acc) rest
            | none => runDefs isRegen tx acc rest

/-- The whole `prisma.$transaction` body (lines 182-302): in
regeneration mode first clear all non-archived sprints, then run the
per-definition loop; a thrown validation error aborts the transaction. -/
def sprintsBatchTx (store : Store) (defs : List SprintData) (isRegen : Bool) :
    Except String (Store × List Sprint) :=
  let st0 := if isRegen then clearNonArchived store else store
  runDefs isRegen st0 [] defs

/-- Route-level outcome of `POST /api/sprints/batch` (ignoring the
regeneration guard, modelled separately). -/
inductive BatchOutcome where
  | success (sprints : List Sprint)
  | badRequest (msg : String)
  | serverError (msg : String)
deriving DecidableEq, Repr

/-- The route body after the guard: reject an empty `sprints` array,
otherwise run the transaction; on error the transaction rolls back and
the store is left unchanged. -/
def applyBatch (store : Store) (defs : List SprintData) (isRegen : Bool) :
    Store × BatchOutcome :=
  if defs.isEmpty then (store, .badRequest "sprints must be a non-empty array")
  else
    match sprintsBatchTx store defs isRegen with
    | .ok (st', res) => (st', .success res)
    | .error e => (store, .serverError e)

/-- Names of the non-archived sprints, in row order. -/
def activeNames (st : Store) : List String :=
  (st.sprints.filter (fun s => !s.archived)).map (·.name)

/-- How many non-archived sprints carry name `n`. -/
def countActive (n : String) (st : Store) : ℕ :=
  st.sprints.countP (fun s => s.name = n && !s.archived)

/-- The regeneration-relevant view of a sprint row: everything except
the generated id. -/
def sprintView (s : Sprint) : String × ℤ × ℤ × ℚ × Option ℚ :=
  (s.name, s.startDate, s.endDate, s.plannedVelocity, s.actualVelocity)

/-- Id-free view of the non-archived sprints, in row order. -/
def activeView (st : Store) : List (String × ℤ × ℤ × ℚ × Option ℚ) :=
  (st.sprints.filter (fun s => !s.archived)).map sprintView

/-- The id-free rows a regeneration loop creates from a definition list,
given the live names already present: the first valid definition of each
unseen name contributes a row, later definitions of the same name are
skipped by the duplicate re-check. -/
def regenValidViews (seen : List String) :
    List SprintData → List (String × ℤ × ℤ × ℚ × Option ℚ)
  | [] => []
  | d :: rest =>
    match getValid d with
    | none => []
    | some (n, sd, ed, pv) =>
      if n ∈ seen then regenValidViews seen rest
      else (n, sd, ed, pv, d.actualVelocity) :: regenValidViews (seen ++ [n]) rest

/-! ### Regeneration guard (lines 129-169 and 317-323) -/

/-- `REGENERATION_COOLDOWN = 5000` ms. -/
def REGENERATION_COOLDOWN : ℤ := 5000

/-- The module-level guard variables `regenerationInProgress` and
`lastRegenerationTime`. -/
structure GuardState where
  regenerationInProgress : Bool
  lastRegenerationTime : ℤ
deriving DecidableEq, Repr

/-- How the guard answers one regeneration request. -/
inductive GuardDecision where
  | conflict409   -- "Regeneration already in progress"
  | cooldown429   -- "Regeneration cooldown active"
  | proceed
deriving DecidableEq, Repr

/-- The guard check a regeneration request performs synchronously before
its first suspension point (lines 139-169): reject with 409 while a
regeneration is in flight; reject with 429 within the cooldown window;
otherwise record the start time and take the in-progress flag. -/
def regenBegin (g : GuardState) (now : ℤ) : GuardDecision × GuardState :=
  if g.regenerationInProgress then (.conflict409, g)
  else if now - g.lastRegenerationTime < REGENERATION_COOLDOWN then (.cooldown429, g)
  else (.proceed, ⟨true, now⟩)

/-- The `finally` block (lines 317-323): release the in-progress flag;
the cooldown timestamp keeps the start time. -/
def regenEnd (g : GuardState) : GuardState :=
  ⟨false, g.lastRegenerationTime⟩

/-- The name strategy 1 works with: extracted from the *last* sprint
association and subject to the `if (sprintName)` truthiness test
(lines 1457-1462). -/
def effectiveName (t : Ticket) : Option String :=
  match t.sprints.getLast? with
  | none => none
  | some lastSprint =>
    match extractSprintName lastSprint with
    | none => none
    | some nm => if nm = "" then none else some nm

/-- Strategy 1 produces no match: either no truthy name is extracted, or
no candidate's name matches the extracted one. -/
def nameStageFails (t : Ticket) (cands : List PastSprint) : Prop :=
  ∀ nm, effectiveName t = some nm → ∀ sp ∈ cands, sprintNameMatches nm sp = false

/-! ## Work-item epic deduplication (`GET /api/work-items`, lines 43-103) -/

/-- The work-item fields the deduplication pass consults.  `jiraId` is
nullable; `epicId` (the parent-epic reference) may hold an internal id
or an external (Jira) id. -/
structure WItem where
  id : String
  jiraId : Option String
  isEpic : Bool
  epicId : Option String
  createdAt : ℤ
  title : String
deriving DecidableEq, Repr

/-- Insertion-ordered JS `Map.set`: replace in place, else append. -/
def jmapSet {κ α : Type} [DecidableEq κ] (m : List (κ × α)) (k : κ) (v : α) :
    List (κ × α) :=
  if m.any (fun p => p.1 = k) then m.map (fun p => if p.1 = k then (k, v) else p)
  else m ++ [(k, v)]

/-- JS `Map.get`: `none` is `undefined`. -/
def jmapGet {κ α : Type} [DecidableEq κ] (m : List (κ × α)) (k : κ) : Option α :=
  (m.find? (fun p => p.1 = k)).map (·.2)

/-- One step of the epic map build (lines 47-52): keyed by `jiraId`, an
entry is replaced only when the new record's `createdAt` is strictly
later. -/
def epicStep (m : List (Option String × WItem)) (e : WItem) :
    List (Option String × WItem) :=
  match jmapGet m e.jiraId with
  | none => jmapSet m e.jiraId e
  | some existing =>
    if existing.createdAt < e.createdAt then jmapSet m e.jiraId e else m

/-- The epic map build over the whole (creation-ordered) epic list. -/
def buildEpicMap (epics : List WItem) : List (Option String × WItem) :=
  epics.foldl epicStep []

/-- The `allEpicIdToJiraId` map (lines 64-67): every epic's internal id,
duplicates included, mapped to its `jiraId`. -/
def buildIdToJira (epics : List WItem) : List (String × Option String) :=
  epics.foldl (fun m e => jmapSet m e.id e.jiraId) []

/-- The filter predicate (lines 70-86).  An item with a truthy `epicId`
is kept when its parent id is a surviving epic's internal id or when the
parent's `jiraId` (resolved through *all* epics) is a surviving epic's
`jiraId`; failing that the item falls through to the duplicate-epic
exclusion, which removes exactly epic-flagged items that are not
survivors; everything else is kept. -/
def keepWorkItem (dedupIds : List String) (dedupJiraIds : List (Option String))
    (idToJira : List (String × Option String)) (item : WItem) : Bool :=
  let childKeep : Bool :=
    match item.epicId with
    | none => false
    | some pid =>
      if pid = "" then false   -- `if (item.epicId)` is a truthiness test
      else
        dedupIds.contains pid ||
          (match jmapGet idToJira pid with
            | some j => dedupJiraIds.contains j
            | none => false)   -- `Set.has(undefined)` over jiraIds is false
  if childKeep then true
  else if item.isEpic && !dedupIds.contains item.id then false
  else true

/-- Output shape of the route: the item, with a `children` array only on
epic records that have at least one matched child (lines 87-103). -/
structure WItemOut where
  item : WItem
  children : Option (List WItem)
deriving DecidableEq, Repr

/-- The map step (lines 87-103): an epic's children are the items whose
`epicId` strictly equals the epic's internal id, or strictly equals the
epic's `jiraId` (in JS `null === null` holds, so a `null` parent
reference matches a `null` `jiraId`); an empty list becomes `undefined`. -/
def toOutItem (allItems : List WItem) (item : WItem) : WItemOut :=
  if item.isEpic then
    let children := allItems.filter
      (fun c => c.epicId = some item.id || c.epicId = item.jiraId)
    ⟨item, if children.isEmpty then none else some children⟩
  else ⟨item, none⟩

/-- The full deduplication pass of `GET /api/work-items` on the
already-transformed, `createdAt`-ascending item list (lines 43-103). -/
def getWorkItemsOutput (items : List WItem) : List WItemOut :=
  let epics := items.filter (·.isEpic)
  let epicMap := buildEpicMap epics
  let dedup := epicMap.map (·.2)
  let dedupIds := dedup.map (·.id)
  let dedupJiraIds := dedup.map (·.jiraId)
  let idToJira := buildIdToJira epics
  (items.filter (keepWorkItem dedupIds dedupJiraIds idToJira)).map (toOutItem items)

/-! # Theorems -/

/-! ## C4 — story-point normalisation -/

/-- C4 (counterexample): the claim says `normalizeStoryPoints` never
returns NaN and always lands in `[0.5, 20]`, but the numeric input `NaN`
(a JavaScript `number`, so it passes the `typeof` check) flows into
`Math.max(0.5, Math.min(NaN, 20))`, which is `NaN`. -/
theorem story_points_nan_counterexample :
    validateStoryPoints (.vNum .nan) = .nan ∧
    ¬ inStoryRange (validateStoryPoints (.vNum .nan)) := by
  decide

/-- C4 (amended): for every input other than the numeric value `NaN`,
`normalizeStoryPoints` succeeds with a value in `[0.5, 20]` (hence never
NaN and never ≤ 0); the listed concrete values hold, including
`normalizeStoryPoints(NaN's cousins)`: `null → 1`, `"None" → 1`,
`"" → 1`, non-numeric string → 1, `150 → 1`, `7 → 7`, `"3.5" → 3.5`,
`0.1 → 0.5`. -/
theorem story_points_amended :
    (∀ v : JSVal, v ≠ .vNum .nan → inStoryRange (validateStoryPoints v)) ∧
    validateStoryPoints .vNull = .num 1 ∧
    validateStoryPoints (.vStr "None") = .num 1 ∧
    validateStoryPoints (.vStr "") = .num 1 ∧
    validateStoryPoints (.vStr "abc") = .num 1 ∧
    validateStoryPoints (.vNum (.num 150)) = .num 1 ∧
    validateStoryPoints (.vNum (.num 7)) = .num 7 ∧
    validateStoryPoints (.vStr "3.5") = .num (7/2) ∧
    validateStoryPoints (.vNum (.num (1/10))) = .num (1/2) := by
  have hclamp : ∀ p : JSNum, p ≠ .nan →
      inStoryRange (if p.gt (.num 100) then .num 1
        else JSNum.jsMax (.num (1/2)) (JSNum.jsMin p (.num 20))) := by
    intro p hp
    match p with
    | .nan => exact absurd rfl hp
    | .posInf => exact ⟨1, by simp [JSNum.gt], by norm_num, by norm_num⟩
    | .negInf =>
      refine ⟨1/2, ?_, le_refl _, by norm_num⟩
      simp [JSNum.gt, JSNum.jsMin, JSNum.jsMax]
    | .num q =>
      by_cases h : q > 100
      · refine ⟨1, ?_, by norm_num, by norm_num⟩
        simp [JSNum.gt, h]
      · refine ⟨max (1/2) (min q 20), ?_, le_max_left _ _,
          max_le (by norm_num) (min_le_right _ _)⟩
        simp [JSNum.gt, h, JSNum.jsMin, JSNum.jsMax]
  refine ⟨?_, rfl, by decide, by decide, by decide, ?_, ?_, ?_, ?_⟩
  · intro v hv
    match v with
    | .vNull => exact ⟨1, rfl, by norm_num, by norm_num⟩
    | .vUndefined => exact ⟨1, rfl, by norm_num, by norm_num⟩
    | .vOther => exact ⟨1, rfl, by norm_num, by norm_num⟩
    | .vStr s =>
      by_cases hs : s = "None" ∨ s = ""
      · simp only [validateStoryPoints, if_pos hs]
        exact ⟨1, rfl, by norm_num, by norm_num⟩
      · rcases hpf : parseFloat (jsTrim s) with _ | _ | _ | q
        · simp only [validateStoryPoints, if_neg hs, hpf]
          exact ⟨1, rfl, by norm_num, by norm_num⟩
        · have := hclamp .posInf (by simp)
          simpa only [validateStoryPoints, if_neg hs, hpf] using this
        · have := hclamp .negInf (by simp)
          simpa only [validateStoryPoints, if_neg hs, hpf] using this
        · have := hclamp (.num q) (by simp)
          simpa only [validateStoryPoints, if_neg hs, hpf] using this
    | .vNum p =>
      have hp : p ≠ .nan := by
        intro h
        exact hv (by rw [h])
      have := hclamp p hp
      match p, hp with
      | .posInf, _ => simpa only [validateStoryPoints] using this
      | .negInf, _ => simpa only [validateStoryPoints] using this
      | .num q, _ => simpa only [validateStoryPoints] using this
  · simp [validateStoryPoints, JSNum.gt, JSNum.jsMax, JSNum.jsMin]
    norm_num
  · simp [validateStoryPoints, JSNum.gt, JSNum.jsMax, JSNum.jsMin]
    norm_num
  · have h2 : jsTrim "3.5" = "3.5" := by decide
    have h3 : parseFloat "3.5" = .num (7/2) := by
      have h4 : "3.5".toList = ['3', '.', '5'] := by decide
      simp [parseFloat, h4, digitsVal, pow10]
      norm_num
    simp [validateStoryPoints, h2, h3, JSNum.gt, JSNum.jsMax, JSNum.jsMin]
    norm_num
  · simp [validateStoryPoints, JSNum.gt, JSNum.jsMax, JSNum.jsMin]
    norm_num

/-- Witness for `story_points_amended` at the numeric input `7`. -/
theorem story_points_amended_witness :
    (JSVal.vNum (.num 7) ≠ JSVal.vNum .nan) ∧
    inStoryRange (validateStoryPoints (.vNum (.num 7))) :=
  ⟨by decide, story_points_amended.1 (.vNum (.num 7)) (by decide)⟩

/-! ## C3 — rich-document text extraction rules -/

/-- C3 (counterexample): the claim says `paragraph` children concatenate
with no separator and list children get bullet markers, but line 123 of
the source catches *every* node with a `content` array first and joins
its children with `'\n'`: a paragraph of texts `"a"`, `"b"` yields
`"a\nb"` (not `"ab"`), and a bullet list of items `"x"`, `"y"` yields
`"x\ny"` (no `'• '` prefixes). -/
theorem adf_extract_separator_counterexample :
    extractTextFromADF (.obj (some "paragraph") none
        (some [.obj (some "text") (some "a") none,
               .obj (some "text") (some "b") none])) = "a\nb" ∧
    "a\nb" ≠ "ab" ∧
    extractTextFromADF (.obj (some "bulletList") none
        (some [.obj (some "listItem") none (some [.obj (some "text") (some "x") none]),
               .obj (some "listItem") none (some [.obj (some "text") (some "y") none])]))
      = "x\ny" ∧
    "x\ny" ≠ "• x\n• y" := by
  refine ⟨?_, by decide, ?_, by decide⟩ <;> (simp [extractTextFromADF]; decide)

/-- C3 (amended): every node with a `content` array — whatever its
`type` — yields its children's extracted text joined by `'\n'`; the
type-specific branches only apply to nodes without a `content` array,
where a `text` node yields `text || ''` and every other node yields
`''`; a bare string is returned unchanged and a falsy input yields
`''`. -/
theorem adf_extract_amended :
    (∀ (ty tx : Option String) (children : List ADF),
        extractTextFromADF (.obj ty tx (some children)) =
          String.intercalate "\n" (children.map extractTextFromADF)) ∧
    (∀ tx, extractTextFromADF (.obj (some "text") tx none) = tx.getD "") ∧
    (∀ ty tx, ty ≠ some "text" → extractTextFromADF (.obj ty tx none) = "") ∧
    (∀ s, extractTextFromADF (.strv s) = s) ∧
    extractTextFromADF .nullv = "" := by
  refine ⟨?_, ?_, ?_, fun s => by rw [extractTextFromADF.eq_def], by rw [extractTextFromADF.eq_def]⟩
  · intro ty tx children
    rw [extractTextFromADF.eq_def]
    simp [List.attach_map_val]
  · intro tx
    rw [extractTextFromADF.eq_def]
    cases tx <;> simp
  · intro ty tx h
    rw [extractTextFromADF.eq_def]
    simp [h]

/-- Witness for `adf_extract_amended`: a `paragraph` without a `content`
array yields the empty string. -/
theorem adf_extract_amended_witness :
    (some "paragraph" ≠ some "text") ∧
    extractTextFromADF (.obj (some "paragraph") (some "zzz") none) = "" :=
  ⟨by decide, adf_extract_amended.2.2.1 (some "paragraph") (some "zzz") (by decide)⟩

/-! ## C10 — termination of the extraction -/

/-- Every ADF value needs at least one unit of fuel. -/
theorem fuelADF_pos (a : ADF) : 1 ≤ fuelADF a := by
  match a with
  | .nullv => simp [fuelADF]
  | .strv s => simp [fuelADF]
  | .obj ty tx none => simp [fuelADF]
  | .obj ty tx (some l) => simp [fuelADF]

/-- Every content array needs at least one unit of fuel. -/
theorem fuelList_pos (l : List ADF) : 1 ≤ fuelADF.fuelList l := by
  cases l <;> simp [fuelADF.fuelList]

/-- With fuel at least `fuelADF a` (resp. `fuelList l`), the fuelled
extraction completes and agrees with `extractTextFromADF`. -/
theorem extractTextFuel_sufficient :
    ∀ n : ℕ,
      (∀ a : ADF, fuelADF a ≤ n → extractTextFuel n a = some (extractTextFromADF a)) ∧
      (∀ l : List ADF, fuelADF.fuelList l ≤ n →
        extractTextFuel.extractEachFuel n l = some (l.map extractTextFromADF)) := by
  intro n
  induction n with
  | zero =>
    constructor
    · intro a ha
      have := fuelADF_pos a
      omega
    · intro l hl
      have := fuelList_pos l
      omega
  | succ n ih =>
    obtain ⟨ihT, ihL⟩ := ih
    constructor
    · intro a ha
      match a with
      | .nullv =>
        rw [extractTextFromADF.eq_def]
        simp [extractTextFuel]
      | .strv s =>
        rw [extractTextFromADF.eq_def]
        simp [extractTextFuel]
      | .obj ty tx none =>
        rw [extractTextFromADF.eq_def]
        simp [extractTextFuel]
      | .obj ty tx (some children) =>
        have hl : fuelADF.fuelList children ≤ n := by
          simp only [fuelADF] at ha
          omega
        rw [extractTextFromADF.eq_def]
        simp only [extractTextFuel]
        rw [ihL children hl]
        simp [List.attach_map_val]
    · intro l hl
      match l with
      | [] => simp [extractTextFuel.extractEachFuel]
      | x :: xs =>
        have hmx : max (fuelADF x) (fuelADF.fuelList xs) ≤ n := by
          simp only [fuelADF.fuelList] at hl
          omega
        have h1 : fuelADF x ≤ n := le_trans (le_max_left _ _) hmx
        have h2 : fuelADF.fuelList xs ≤ n := le_trans (le_max_right _ _) hmx
        simp only [extractTextFuel.extractEachFuel, List.map_cons]
        rw [ihT x h1, ihL xs h2]

/-- C10: on every finite rich-document tree — bare strings, falsy
values, empty or deeply nested `content` arrays included — the
extraction recursion completes within `fuelADF a` recursive steps and
produces the (total) `extractTextFromADF` result; the fuelled run never
signals failure, i.e. the recursion never aborts. -/
theorem adf_extraction_terminates (a : ADF) :
    extractTextFuel (fuelADF a) a = some (extractTextFromADF a) :=
  (extractTextFuel_sufficient (fuelADF a)).1 a le_rfl

/-! ## C2 — sprint matcher ordering -/

/-- `find?` returns the first element satisfying the predicate. -/
theorem find?_eq_get_of_first {α : Type} (p : α → Bool) (l : List α) (i : ℕ)
    (hi : i < l.length) (hp : p (l.get ⟨i, hi⟩) = true)
    (hmin : ∀ j (hj : j < i), p (l.get ⟨j, Nat.lt_trans hj hi⟩) = false) :
    l.find? p = some (l.get ⟨i, hi⟩) := by
  induction l generalizing i with
  | nil => simp at hi
  | cons x xs ih =>
    cases i with
    | zero =>
      simpa [List.find?_cons] using hp ▸ (by simp [List.find?_cons, hp])
    | succ n =>
      have hx : p x = false := hmin 0 (Nat.succ_pos n)
      have hi' : n < xs.length := by simpa using hi
      have hp' : p (xs.get ⟨n, hi'⟩) = true := by simpa using hp
      have hmin' : ∀ j (hj : j < n), p (xs.get ⟨j, Nat.lt_trans hj hi'⟩) = false := by
        intro j hj
        simpa using hmin (j + 1) (by omega)
      simp only [List.find?_cons, hx]
      simpa using ih n hi' hp' hmin'

/-- C2 (counterexample): with extracted name `"Sprint 12"` and
candidates `["Sprint 12 extra", "Sprint 12"]`, the matcher returns the
*containment* match at index 0 even though an exact case-insensitive
match exists at index 1 — so exact equality is not tried before
containment, contrary to the claim.  And with no sprint association and
no window containing the `updated` timestamp, the fallback returns the
*last* list element (start 50) rather than the most recently-started
candidate (start 100). -/
theorem sync_match_order_counterexample :
    syncMatchSprint ⟨[.objv (some "Sprint 12") none], 5⟩
        [⟨0, "Sprint 12 extra", 0, 10⟩, ⟨1, "Sprint 12", 0, 10⟩] =
      some ⟨0, "Sprint 12 extra", 0, 10⟩ ∧
    jsToLower "Sprint 12 extra" ≠ jsToLower "Sprint 12" ∧
    jsToLower "Sprint 12" = jsToLower "Sprint 12" ∧
    syncMatchSprint ⟨[], 1000⟩ [⟨0, "A", 100, 110⟩, ⟨1, "B", 50, 60⟩] =
      some ⟨1, "B", 50, 60⟩ ∧
    (50 : ℤ) < 100 := by
  decide

/-- C2 (amended): the matcher proceeds name stage → date stage →
fallback → `no_sprint_found`, where (1) the name stage is a *single*
pass returning the first candidate whose name matches the extracted name
by exact case-insensitive equality **or** case-insensitive containment
in either direction; (2) the date stage returns the first candidate
whose window contains the ticket's `updated` timestamp; (3) the fallback
returns the last candidate of the supplied list (the caller passes
candidates sorted ascending by start date, making this the latest-started
one); (4) with zero candidates the classification is `no_sprint_found`,
not an error. -/
theorem sync_match_characterization :
    ∀ (t : Ticket) (cands : List PastSprint),
      (∀ (nm : String) (i : ℕ) (hi : i < cands.length),
          effectiveName t = some nm →
          sprintNameMatches nm (cands.get ⟨i, hi⟩) = true →
          (∀ j (hj : j < i), sprintNameMatches nm (cands.get ⟨j, Nat.lt_trans hj hi⟩) = false) →
          syncMatchSprint t cands = some (cands.get ⟨i, hi⟩)) ∧
      (∀ (i : ℕ) (hi : i < cands.length),
          nameStageFails t cands →
          inSprintWindow t (cands.get ⟨i, hi⟩) = true →
          (∀ j (hj : j < i), inSprintWindow t (cands.get ⟨j, Nat.lt_trans hj hi⟩) = false) →
          syncMatchSprint t cands = some (cands.get ⟨i, hi⟩)) ∧
      (nameStageFails t cands →
        (∀ sp ∈ cands, inSprintWindow t sp = false) →
        syncMatchSprint t cands = cands.getLast?) ∧
      (cands = [] → classifyTicket t cands = .noSprintFound) := by
  intro t cands
  have hstage1 : ∀ nm, effectiveName t = some nm →
      syncMatchSprint t cands =
        (match cands.find? (sprintNameMatches nm) with
          | some s => some s
          | none =>
            match cands.find? (inSprintWindow t) with
            | some s => some s
            | none => cands.getLast?) := by
    intro nm hnm
    rcases h1 : t.sprints.getLast? with _ | ls
    · simp [effectiveName, h1] at hnm
    · rcases h2 : extractSprintName ls with _ | nm'
      · simp [effectiveName, h1, h2] at hnm
      · have : (if nm' = "" then none else some nm') = some nm := by
          simpa [effectiveName, h1, h2] using hnm
        by_cases he : nm' = ""
        · simp [he] at this
        · rw [if_neg he] at this
          obtain rfl : nm' = nm := by injection this
          simp [syncMatchSprint, h1, h2, he]
  have hstage1none : nameStageFails t cands →
      syncMatchSprint t cands =
        (match cands.find? (inSprintWindow t) with
          | some s => some s
          | none => cands.getLast?) := by
    intro hfail
    rcases h1 : t.sprints.getLast? with _ | ls
    · simp [syncMatchSprint, h1]
    · rcases h2 : extractSprintName ls with _ | nm'
      · simp [syncMatchSprint, h1, h2]
      · by_cases he : nm' = ""
        · simp [syncMatchSprint, h1, h2, he]
        · have heff : effectiveName t = some nm' := by
            simp [effectiveName, h1, h2, he]
          have hnone : cands.find? (sprintNameMatches nm') = none :=
            List.find?_eq_none.mpr (by
              intro sp hsp
              simp [hfail nm' heff sp hsp])
          simp [syncMatchSprint, h1, h2, he, hnone]
  refine ⟨?_, ?_, ?_, ?_⟩
  · intro nm i hi hnm hp hmin
    rw [hstage1 nm hnm, find?_eq_get_of_first _ _ i hi hp hmin]
  · intro i hi hfail hp hmin
    have hnone : syncMatchSprint t cands =
        (match cands.find? (inSprintWindow t) with
          | some s => some s
          | none => cands.getLast?) := hstage1none hfail
    rw [hnone, find?_eq_get_of_first _ _ i hi hp hmin]
  · intro hfail hwin
    have hnone2 : cands.find? (inSprintWindow t) = none :=
      List.find?_eq_none.mpr (by intro sp hsp; simp [hwin sp hsp])
    rw [hstage1none hfail, hnone2]
  · rintro rfl
    rcases h1 : t.sprints.getLast? with _ | ls
    · simp [classifyTicket, syncMatchSprint, h1]
    · rcases h2 : extractSprintName ls with _ | nm
      · simp [classifyTicket, syncMatchSprint, h1, h2]
      · by_cases he : nm = "" <;>
          simp [classifyTicket, syncMatchSprint, h1, h2, he]

/-- Witness for `sync_match_characterization`: concrete runs of the name
stage and of the empty-candidate classification. -/
theorem sync_match_characterization_witness :
    syncMatchSprint ⟨[.objv (some "Sprint 9") none], 5⟩
        [⟨0, "Sprint 9", 0, 10⟩, ⟨1, "Sprint 9 extra", 0, 10⟩] =
      some ⟨0, "Sprint 9", 0, 10⟩ ∧
    classifyTicket ⟨[], 0⟩ [] = .noSprintFound := by
  constructor
  · have h := (sync_match_characterization ⟨[.objv (some "Sprint 9") none], 5⟩
      [⟨0, "Sprint 9", 0, 10⟩, ⟨1, "Sprint 9 extra", 0, 10⟩]).1
      "Sprint 9" 0 (by decide) (by decide) (by decide)
    simpa using h (by intro j hj; omega)
  · exact (sync_match_characterization ⟨[], 0⟩ []).2.2.2 rfl

/-! ## C5 — regeneration single-flight guard -/

/-- C5: the guard serialises regenerations.  From an idle guard outside
the cooldown window, a first regeneration request proceeds and takes the
flag; a second request arriving while the first is in flight is rejected
with the in-progress conflict (HTTP 409) and the guard state is
unchanged (nothing is queued); after the first completes, a third
request within `REGENERATION_COOLDOWN` of the first one's start is
rejected with the cooldown rejection (HTTP 429, the spec's
`ConflictFailure` also covers this case) — again without queueing — and
any request at least `REGENERATION_COOLDOWN` after the first one's start
proceeds. -/
theorem regeneration_single_flight :
    ∀ (g0 : GuardState) (t1 t2 t3 : ℤ),
      g0.regenerationInProgress = false →
      REGENERATION_COOLDOWN ≤ t1 - g0.lastRegenerationTime →
      t3 - t1 < REGENERATION_COOLDOWN →
      (regenBegin g0 t1).1 = .proceed ∧
      (regenBegin (regenBegin g0 t1).2 t2).1 = .conflict409 ∧
      (regenBegin (regenBegin g0 t1).2 t2).2 = (regenBegin g0 t1).2 ∧
      (regenBegin (regenEnd (regenBegin (regenBegin g0 t1).2 t2).2) t3).1 = .cooldown429 ∧
      (regenBegin (regenEnd (regenBegin (regenBegin g0 t1).2 t2).2) t3).2 =
        regenEnd (regenBegin (regenBegin g0 t1).2 t2).2 ∧
      (∀ t4, REGENERATION_COOLDOWN ≤ t4 - t1 →
        (regenBegin (regenEnd (regenBegin (regenBegin g0 t1).2 t2).2) t4).1 = .proceed) := by
  intro g0 t1 t2 t3 h0 hc h3
  have hc' : (5000 : ℤ) ≤ t1 - g0.lastRegenerationTime := by
    simpa [REGENERATION_COOLDOWN] using hc
  have h3' : t3 - t1 < 5000 := by
    simpa [REGENERATION_COOLDOWN] using h3
  have e1 : regenBegin g0 t1 = (.proceed, ⟨true, t1⟩) := by
    simp only [regenBegin, h0, Bool.false_eq_true, if_false, REGENERATION_COOLDOWN]
    rw [if_neg (by omega)]
  have e2 : regenBegin (⟨true, t1⟩ : GuardState) t2 = (.conflict409, ⟨true, t1⟩) := by
    simp [regenBegin]
  have e4 : regenBegin (⟨false, t1⟩ : GuardState) t3 = (.cooldown429, ⟨false, t1⟩) := by
    simp only [regenBegin, Bool.false_eq_true, if_false, REGENERATION_COOLDOWN]
    rw [if_pos (by omega)]
  refine ⟨by rw [e1], by rw [e1, e2], by rw [e1, e2], ?_, ?_, ?_⟩
  · rw [e1, e2]
    show (regenBegin (regenEnd ⟨true, t1⟩) t3).1 = .cooldown429
    simp only [regenEnd]
    rw [e4]
  · rw [e1, e2]
    show (regenBegin (regenEnd ⟨true, t1⟩) t3).2 = regenEnd ⟨true, t1⟩
    simp only [regenEnd]
    rw [e4]
  · intro t4 h4
    have h4' : (5000 : ℤ) ≤ t4 - t1 := by simpa [REGENERATION_COOLDOWN] using h4
    rw [e1, e2]
    show (regenBegin (regenEnd ⟨true, t1⟩) t4).1 = .proceed
    simp only [regenEnd, regenBegin, Bool.false_eq_true, if_false, REGENERATION_COOLDOWN]
    rw [if_neg (by omega)]

/-- Witness for `regeneration_single_flight` at concrete times. -/
theorem regeneration_single_flight_witness :
    (regenBegin ⟨false, 0⟩ 5000).1 = .proceed ∧
    (regenBegin (regenBegin ⟨false, 0⟩ 5000).2 5001).1 = .conflict409 ∧
    (regenBegin (regenEnd (regenBegin (regenBegin ⟨false, 0⟩ 5000).2 5001).2) 6000).1 =
      .cooldown429 := by
  have h := regeneration_single_flight ⟨false, 0⟩ 5000 5001 6000
    (by decide) (by decide) (by decide)
  exact ⟨h.1, h.2.1, h.2.2.2.1⟩

/-! ## C6 — batch validation atomicity -/

/-- The transaction loop aborts with the first invalid definition's
message, regardless of mode and of the store state reached so far. -/
theorem runDefs_error_of_firstInvalid :
    ∀ (defs : List SprintData) (d : SprintData) (isRegen : Bool) (tx : Store)
      (acc : List Sprint),
      defs.find? (fun x => (getValid x).isNone) = some d →
      runDefs isRegen tx acc defs = .error (missingMsg d) := by
  intro defs
  induction defs with
  | nil => intro d r tx acc h; simp at h
  | cons d0 rest ih =>
    intro d r tx acc h
    rcases hv : getValid d0 with _ | vv
    · have hd : d = d0 := by
        have : some d0 = some d := by simpa [List.find?_cons, hv] using h
        exact (Option.some.injEq _ _ ▸ this).symm
      subst hd
      simp [runDefs, hv]
    · have hp : (getValid d0).isNone = false := by simp [hv]
      have h' : rest.find? (fun x => (getValid x).isNone) = some d := by
        simpa [List.find?_cons, hp] using h
      obtain ⟨n, sd, ed, pv⟩ := vv
      simp only [runDefs, hv, createSprint]
      by_cases hr : r = true
      · subst hr
        simp only [if_true]
        cases hfa : findActiveByName tx n
        · simpa using ih d true _ _ h'
        · simpa using ih d true _ _ h'
      · replace hr : r = false := by simpa using hr
        subst hr
        simp only [Bool.false_eq_true, if_false]
        cases hbd : (match findActiveByName tx n with
          | some e => some e
          | none => findActiveByNameDates tx n sd ed) with
        | some e => simpa [hbd] using ih d false _ _ h'
        | none =>
          simp only [hbd]
          by_cases hsim : (findSimilarActive tx n).isEmpty
          · simp only [hsim, if_true]
            simpa using ih d false _ _ h'
          · simp only [hsim, Bool.false_eq_true, if_false]
            cases hex : (findSimilarActive tx n).find? (fun s => s.name = n)
            · simpa using ih d false _ _ h'
            · simpa using ih d false _ _ h'

/-- C6: batch validation is atomic.  If any definition misses a required
field (`name`, `startDate`, `endDate`, `plannedVelocity`), the whole
transaction aborts: the route answers with the error message naming the
first offending definition (`name || 'unnamed'`), and the store is
returned exactly as it was — zero sprints persisted, in either mode. -/
theorem batch_validation_atomic :
    ∀ (store : Store) (defs : List SprintData) (isRegen : Bool) (d : SprintData),
      defs.find? (fun x => (getValid x).isNone) = some d →
      applyBatch store defs isRegen = (store, .serverError (missingMsg d)) := by
  intro store defs r d h
  have hne : defs.isEmpty = false := by
    cases defs
    · simp at h
    · rfl
  have htx : sprintsBatchTx store defs r = .error (missingMsg d) :=
    runDefs_error_of_firstInvalid defs d r _ [] h
  simp [applyBatch, hne, htx]

/-- Witness for `batch_validation_atomic`: three valid definitions plus
one missing `plannedVelocity` persist nothing, and the error names the
offending sprint. -/
theorem batch_validation_atomic_witness :
    applyBatch ⟨[], 0⟩
      [⟨some "S1", some 0, some 10, some 5, none⟩,
       ⟨some "S2", some 11, some 20, some 5, none⟩,
       ⟨some "S3", some 21, some 30, some 5, none⟩,
       ⟨some "Sprint 4", some 31, some 40, none, none⟩] false =
      (⟨[], 0⟩, .serverError "Missing required fields for sprint: Sprint 4") := by
  have h := batch_validation_atomic ⟨[], 0⟩
    [⟨some "S1", some 0, some 10, some 5, none⟩,
     ⟨some "S2", some 11, some 20, some 5, none⟩,
     ⟨some "S3", some 21, some 30, some 5, none⟩,
     ⟨some "Sprint 4", some 31, some 40, none, none⟩] false
    ⟨some "Sprint 4", some 31, some 40, none, none⟩ (by decide)
  rw [h]
  decide

/-! ## C7 — no new duplicate names in one invocation -/

/-- Velocity updates touch neither name nor archived flag, so the
per-name live count is unchanged. -/
theorem countActive_update (st : Store) (sid : ℕ) (pv : ℚ) (av : Option ℚ) (n : String) :
    countActive n (updateSprintVelocity st sid pv av) = countActive n st := by
  unfold countActive updateSprintVelocity
  rw [List.countP_map]
  refine List.countP_congr ?_
  intro s _
  by_cases h : s.id = sid <;> simp [h, applyVelocityUpdate, Function.comp]

/-- Creating a sprint adds one live row with the new name. -/
theorem countActive_create (st : Store) (n' : String) (sd ed : ℤ) (pv : ℚ)
    (av : Option ℚ) (n : String) :
    countActive n (createSprint st n' sd ed pv av).2 =
      countActive n st + (if n' = n then 1 else 0) := by
  unfold countActive createSprint
  rw [List.countP_append]
  by_cases h : n' = n <;> simp [h, List.countP_cons]

/-- If the live-name lookup finds nothing, the live count is zero. -/
theorem countActive_eq_zero_of_find_none (st : Store) (n : String)
    (h : findActiveByName st n = none) : countActive n st = 0 := by
  refine List.countP_eq_zero.mpr ?_
  intro s hs
  have := List.find?_eq_none.mp h s hs
  simpa using this

/-- Through the whole definition loop, in either mode, the live count of
every name stays below `max 1` of its starting value. -/
theorem runDefs_countActive :
    ∀ (defs : List SprintData) (isRegen : Bool) (tx : Store) (acc : List Sprint)
      (st' : Store) (res : List Sprint) (n : String),
      runDefs isRegen tx acc defs = .ok (st', res) →
      countActive n st' ≤ max 1 (countActive n tx) := by
  intro defs
  induction defs with
  | nil =>
    intro r tx acc st' res n h
    obtain ⟨rfl, -⟩ : tx = st' ∧ acc.reverse = res := by
      simpa [runDefs] using h
    exact le_max_right _ _
  | cons d rest ih =>
    intro r tx acc st' res n h
    rcases hv : getValid d with _ | ⟨nm, sd, ed, pv⟩
    · simp only [runDefs, hv] at h
      cases h
    · have hcreate : ∀ (tx₀ : Store) (acc₀ : List Sprint),
          findActiveByName tx₀ nm = none →
          runDefs r (createSprint tx₀ nm sd ed pv d.actualVelocity).2 acc₀ rest = .ok (st', res) →
          countActive n st' ≤ max 1 (countActive n tx₀) := by
        intro tx₀ acc₀ hfa hrun
        have hstep := ih r _ _ _ _ n hrun
        rw [countActive_create] at hstep
        by_cases hnm : nm = n
        · subst hnm
          rw [countActive_eq_zero_of_find_none tx₀ nm hfa] at hstep
          simpa using le_trans hstep (le_max_left _ _)
        · rw [if_neg hnm, Nat.add_zero] at hstep
          exact hstep
      by_cases hr : r = true
      · subst hr
        simp only [runDefs, hv, eq_self_iff_true, if_true] at h
        cases hfa : findActiveByName tx nm
        · simp only [hfa, createSprint] at h
          exact hcreate tx _ hfa h
        · simp only [hfa] at h
          exact ih true tx _ st' res n h
      · replace hr : r = false := by simpa using hr
        subst hr
        simp only [runDefs, hv, Bool.false_eq_true, if_false] at h
        cases hbd : (match findActiveByName tx nm with
          | some e => some e
          | none => findActiveByNameDates tx nm sd ed) with
        | some e =>
          simp only [hbd] at h
          have hstep := ih false _ _ _ _ n h
          rwa [countActive_update] at hstep
        | none =>
          simp only [hbd] at h
          have hfa : findActiveByName tx nm = none := by
            rcases hfe : findActiveByName tx nm with _ | e
            · rfl
            · rw [hfe] at hbd
              cases hbd
          by_cases hsim : (findSimilarActive tx nm).isEmpty = true
          · simp only [hsim, eq_self_iff_true, if_true, createSprint] at h
            exact hcreate tx _ hfa h
          · replace hsim : (findSimilarActive tx nm).isEmpty = false := by simpa using hsim
            simp only [hsim, Bool.false_eq_true, if_false] at h
            cases hex : (findSimilarActive tx nm).find? (fun s => s.name = nm)
            · simp only [hex] at h
              exact ih false tx _ st' res n h
            · simp only [hex] at h
              have hstep := ih false _ _ _ _ n h
              rwa [countActive_update] at hstep

/-- Clearing the non-archived sprints leaves no live rows at all. -/
theorem countActive_clear (st : Store) (n : String) :
    countActive n (clearNonArchived st) = 0 := by
  refine List.countP_eq_zero.mpr ?_
  intro s hs
  have : s.archived = true := (List.mem_filter.mp hs).2
  simp [this]

/-- C7: one successful `applyBatch` transaction never introduces a new
pair of non-archived sprints sharing a name: for every name, the final
live count is at most `max 1` of the starting live count (so a name that
was unique or absent stays unique), and live-name uniqueness of the
whole store is preserved — in regeneration mode because creation
re-checks for an existing live row with the same name and skips, in
merge mode because a definition with fuzzy matches and no exact match is
skipped and creation only happens when no live row's name contains the
definition's name. -/
theorem batch_no_new_duplicate_names :
    ∀ (store : Store) (defs : List SprintData) (isRegen : Bool) (st' : Store)
      (res : List Sprint),
      sprintsBatchTx store defs isRegen = .ok (st', res) →
      (∀ n, countActive n st' ≤ max 1 (countActive n store)) ∧
      ((∀ m, countActive m store ≤ 1) → ∀ m, countActive m st' ≤ 1) := by
  intro store defs r st' res h
  have hrun : ∀ n, countActive n st' ≤ max 1 (countActive n (if r then clearNonArchived store else store)) := by
    intro n
    exact runDefs_countActive defs r _ [] st' res n (by simpa [sprintsBatchTx] using h)
  have hmain : ∀ n, countActive n st' ≤ max 1 (countActive n store) := by
    intro n
    cases r
    · simpa using hrun n
    · have := hrun n
      rw [if_pos rfl, countActive_clear] at this
      exact le_trans this (by simp)
  refine ⟨hmain, ?_⟩
  intro hub m
  have := hmain m
  have hm := hub m
  omega

/-- Witness for `batch_no_new_duplicate_names`: a regeneration batch
that repeats a name against a store already holding it. -/
theorem batch_no_new_duplicate_names_witness :
    sprintsBatchTx ⟨[⟨0, "A", 0, 10, 5, none, false⟩], 1⟩
        [⟨some "A", some 0, some 10, some 4, none⟩,
         ⟨some "A", some 20, some 30, some 6, none⟩] true =
      .ok (⟨[⟨1, "A", 0, 10, 4, none, false⟩], 2⟩,
           [⟨1, "A", 0, 10, 4, none, false⟩, ⟨1, "A", 0, 10, 4, none, false⟩]) ∧
    countActive "A" ⟨[⟨1, "A", 0, 10, 4, none, false⟩], 2⟩ ≤
      max 1 (countActive "A" ⟨[⟨0, "A", 0, 10, 5, none, false⟩], 1⟩) := by
  constructor
  · rfl
  · exact (batch_no_new_duplicate_names
      ⟨[⟨0, "A", 0, 10, 5, none, false⟩], 1⟩
      [⟨some "A", some 0, some 10, some 4, none⟩, ⟨some "A", some 20, some 30, some 6, none⟩]
      true
      ⟨[⟨1, "A", 0, 10, 4, none, false⟩], 2⟩
      [⟨1, "A", 0, 10, 4, none, false⟩, ⟨1, "A", 0, 10, 4, none, false⟩]
      (by rfl)).1 "A"

/-! ## C1 — regeneration delete scope -/

/-- The regeneration loop only ever appends freshly-numbered rows: the id
counter never decreases, every row present when the loop starts is still
present at the end, and every final row either was already there or
carries a fresh id. -/
theorem runDefs_regen_rows :
    ∀ (defs : List SprintData) (tx : Store) (acc : List Sprint) (st' : Store)
      (res : List Sprint),
      runDefs true tx acc defs = .ok (st', res) →
      tx.nextId ≤ st'.nextId ∧
      (∀ s ∈ tx.sprints, s ∈ st'.sprints) ∧
      (∀ u ∈ st'.sprints, u ∈ tx.sprints ∨ tx.nextId ≤ u.id) := by
  intro defs
  induction defs with
  | nil =>
    intro tx acc st' res h
    obtain ⟨rfl, -⟩ : tx = st' ∧ acc.reverse = res := by
      simpa [runDefs] using h
    exact ⟨le_refl _, fun s hs => hs, fun u hu => Or.inl hu⟩
  | cons d rest ih =>
    intro tx acc st' res h
    rcases hv : getValid d with _ | ⟨nm, sd, ed, pv⟩
    · simp only [runDefs, hv] at h
      cases h
    · simp only [runDefs, hv, eq_self_iff_true, if_true] at h
      cases hfa : findActiveByName tx nm
      · simp only [hfa, createSprint] at h
        obtain ⟨h1, h2, h3⟩ := ih _ _ _ _ h
        refine ⟨?_, ?_, ?_⟩
        · exact le_trans (by simp) h1
        · intro s hs
          exact h2 s (by simp [hs])
        · intro u hu
          rcases h3 u hu with hmem | hfresh
          · rcases List.mem_append.mp hmem with hold | hnew
            · exact Or.inl hold
            · right
              have : u = ⟨tx.nextId, nm, sd, ed, pv, d.actualVelocity, false⟩ := by
                simpa using hnew
              simp [this]
          · exact Or.inr (le_trans (by simp) hfresh)
      · simp only [hfa] at h
        exact ih _ _ _ _ h

/-- C1 (counterexample): a live sprint named `"Other"`, whose name is
not in the batch and whose window `[0, 10]` is disjoint from the batch
window `[100, 200]`, is nevertheless gone after a regeneration run — the
claim's "non-archived sprints outside both of these sets are not
deleted" fails. -/
theorem regen_delete_scope_counterexample :
    applyBatch ⟨[⟨0, "Other", 0, 10, 5, none, false⟩], 1⟩
        [⟨some "A", some 100, some 200, some 3, none⟩] true =
      (⟨[⟨1, "A", 100, 200, 3, none, false⟩], 2⟩,
       .success [⟨1, "A", 100, 200, 3, none, false⟩]) ∧
    ("Other" ∈ activeNames ⟨[⟨0, "Other", 0, 10, 5, none, false⟩], 1⟩) ∧
    ("Other" ∉ activeNames ⟨[⟨1, "A", 100, 200, 3, none, false⟩], 2⟩) ∧
    ("Other" ≠ "A") ∧
    ¬ ((0 : ℤ) ≤ 200 ∧ (100 : ℤ) ≤ 10) := by
  refine ⟨rfl, by decide, by decide, by decide, by decide⟩

/-- C1 (amended): in regeneration mode the batch operation's delete step
removes **all** non-archived sprints — those with matching names or
overlapping dates and every other live sprint alike: after a successful
regeneration on a store with consistent ids, every archived row survives
unchanged, and no id of a previously live row occurs in the final store. -/
theorem regen_deletes_all_nonarchived :
    ∀ (store : Store) (defs : List SprintData) (st' : Store) (res : List Sprint),
      (∀ s ∈ store.sprints, s.id < store.nextId) →
      (store.sprints.map (·.id)).Nodup →
      sprintsBatchTx store defs true = .ok (st', res) →
      (∀ s ∈ store.sprints, s.archived = true → s ∈ st'.sprints) ∧
      (∀ s ∈ store.sprints, s.archived = false → ∀ u ∈ st'.sprints, u.id ≠ s.id) := by
  intro store defs st' res hbound hnodup h
  have hrun : runDefs true (clearNonArchived store) [] defs = .ok (st', res) := by
    simpa [sprintsBatchTx] using h
  obtain ⟨h1, h2, h3⟩ := runDefs_regen_rows defs _ _ _ _ hrun
  constructor
  · intro s hs harch
    exact h2 s (by simp [clearNonArchived, List.mem_filter, hs, harch])
  · intro s hs harch u hu hid
    rcases h3 u hu with hmem | hfresh
    · have humem : u ∈ store.sprints ∧ u.archived = true := by
        simpa [clearNonArchived, List.mem_filter] using hmem
      have : u = s := List.inj_on_of_nodup_map hnodup humem.1 hs hid
      rw [this] at humem
      rw [humem.2] at harch
      cases harch
    · have : store.nextId ≤ u.id := by
        simpa [clearNonArchived] using hfresh
      have := hbound s hs
      omega

/-- Witness for `regen_deletes_all_nonarchived` on a store holding one
archived and one live sprint. -/
theorem regen_deletes_all_nonarchived_witness :
    ((⟨0, "Old", 0, 10, 2, none, true⟩ : Sprint) ∈
      (⟨[⟨0, "Old", 0, 10, 2, none, true⟩, ⟨2, "A", 100, 200, 3, none, false⟩],
        3⟩ : Store).sprints) ∧
    ((⟨2, "A", 100, 200, 3, none, false⟩ : Sprint).id ≠
      (⟨1, "Live", 0, 10, 5, none, false⟩ : Sprint).id) := by
  have h := regen_deletes_all_nonarchived
    ⟨[⟨0, "Old", 0, 10, 2, none, true⟩, ⟨1, "Live", 0, 10, 5, none, false⟩], 2⟩
    [⟨some "A", some 100, some 200, some 3, none⟩]
    ⟨[⟨0, "Old", 0, 10, 2, none, true⟩, ⟨2, "A", 100, 200, 3, none, false⟩], 3⟩
    [⟨2, "A", 100, 200, 3, none, false⟩]
    (by decide) (by decide) (by rfl)
  refine ⟨h.1 ⟨0, "Old", 0, 10, 2, none, true⟩ (by decide) rfl, ?_⟩
  exact h.2 ⟨1, "Live", 0, 10, 5, none, false⟩ (by decide) rfl
    ⟨2, "A", 100, 200, 3, none, false⟩ (by decide)

/-! ## C9 — regeneration idempotence -/

/-- Live names are the first components of the live view. -/
theorem activeNames_eq (st : Store) : activeNames st = (activeView st).map (·.1) := by
  unfold activeNames activeView
  rw [List.map_map]
  rfl

/-- The live-name lookup fails exactly when the name is not live. -/
theorem findActiveByName_none_iff (st : Store) (n : String) :
    findActiveByName st n = none ↔ n ∉ activeNames st := by
  unfold findActiveByName activeNames
  rw [List.find?_eq_none]
  constructor
  · intro h hmem
    obtain ⟨s, hs, hname⟩ := List.mem_map.mp hmem
    have hf := List.mem_filter.mp hs
    have := h s hf.1
    simp [hname, hf.2] at this
  · intro h s hs hpred
    refine h (List.mem_map.mpr ⟨s, List.mem_filter.mpr ⟨hs, ?_⟩, ?_⟩)
    · have := (Bool.and_eq_true _ _).mp hpred
      exact this.2
    · have := (Bool.and_eq_true _ _).mp hpred
      simpa using this.1

/-- Creation appends one live row to the view. -/
theorem activeView_create (st : Store) (n : String) (sd ed : ℤ) (pv : ℚ) (av : Option ℚ) :
    activeView (createSprint st n sd ed pv av).2 = activeView st ++ [(n, sd, ed, pv, av)] := by
  simp [activeView, createSprint, List.filter_append, sprintView]

/-- Creation appends one live name. -/
theorem activeNames_create (st : Store) (n : String) (sd ed : ℤ) (pv : ℚ) (av : Option ℚ) :
    activeNames (createSprint st n sd ed pv av).2 = activeNames st ++ [n] := by
  simp [activeNames, createSprint, List.filter_append]

/-- A successful loop run implies every definition was valid. -/
theorem runDefs_ok_allValid :
    ∀ (defs : List SprintData) (r : Bool) (tx : Store) (acc : List Sprint)
      (st' : Store) (res : List Sprint),
      runDefs r tx acc defs = .ok (st', res) → ∀ d ∈ defs, (getValid d).isSome := by
  intro defs
  induction defs with
  | nil => intro r tx acc st' res _ d hd; simp at hd
  | cons d0 rest ih =>
    intro r tx acc st' res h d hd
    rcases hv : getValid d0 with _ | ⟨nm, sd, ed, pv⟩
    · simp only [runDefs, hv] at h
      cases h
    · have hnext : ∃ (tx' : Store) (acc' : List Sprint),
          runDefs r tx' acc' rest = .ok (st', res) := by
        by_cases hr : r = true
        · subst hr
          simp only [runDefs, hv, eq_self_iff_true, if_true] at h
          cases hfa : findActiveByName tx nm
          · simp only [hfa, createSprint] at h
            exact ⟨_, _, h⟩
          · simp only [hfa] at h
            exact ⟨_, _, h⟩
        · replace hr : r = false := by simpa using hr
          subst hr
          simp only [runDefs, hv, Bool.false_eq_true, if_false] at h
          cases hbd : (match findActiveByName tx nm with
            | some e => some e
            | none => findActiveByNameDates tx nm sd ed) with
          | some e =>
            simp only [hbd] at h
            exact ⟨_, _, h⟩
          | none =>
            simp only [hbd] at h
            by_cases hsim : (findSimilarActive tx nm).isEmpty = true
            · simp only [hsim, eq_self_iff_true, if_true, createSprint] at h
              exact ⟨_, _, h⟩
            · replace hsim : (findSimilarActive tx nm).isEmpty = false := by simpa using hsim
              simp only [hsim, Bool.false_eq_true, if_false] at h
              cases hex : (findSimilarActive tx nm).find? (fun s => s.name = nm)
              · simp only [hex] at h
                exact ⟨_, _, h⟩
              · simp only [hex] at h
                exact ⟨_, _, h⟩
      rcases List.mem_cons.mp hd with rfl | hd'
      · simp [hv]
      · obtain ⟨tx', acc', h'⟩ := hnext
        exact ih r tx' acc' st' res h' d hd'

/-- On all-valid input the regeneration loop succeeds, and the final
live view extends the starting one by exactly the deduplicated rows of
the definition list. -/
theorem runDefs_regen_view :
    ∀ (defs : List SprintData) (tx : Store) (acc : List Sprint),
      (∀ d ∈ defs, (getValid d).isSome) →
      ∃ st' res, runDefs true tx acc defs = .ok (st', res) ∧
        activeView st' = activeView tx ++ regenValidViews (activeNames tx) defs := by
  intro defs
  induction defs with
  | nil =>
    intro tx acc _
    exact ⟨tx, acc.reverse, by simp [runDefs], by simp [regenValidViews]⟩
  | cons d rest ih =>
    intro tx acc hval
    have hd := hval d (List.mem_cons_self d rest)
    rcases hv : getValid d with _ | ⟨n, sd, ed, pv⟩
    · rw [hv] at hd
      simp at hd
    · have hrest : ∀ d' ∈ rest, (getValid d').isSome :=
        fun d' hd' => hval d' (List.mem_cons_of_mem _ hd')
      by_cases hmem : n ∈ activeNames tx
      · rcases hfa : findActiveByName tx n with _ | ex
        · exact absurd ((findActiveByName_none_iff tx n).mp hfa) (by simpa using hmem)
        · obtain ⟨st', res, hrun, hview⟩ := ih tx (ex :: acc) hrest
          refine ⟨st', res, ?_, ?_⟩
          · simp only [runDefs, hv, eq_self_iff_true, if_true, hfa]
            exact hrun
          · rw [hview]
            congr 1
            simp [regenValidViews, hv, hmem]
      · have hfa : findActiveByName tx n = none := (findActiveByName_none_iff tx n).mpr hmem
        obtain ⟨st', res, hrun, hview⟩ :=
          ih (createSprint tx n sd ed pv d.actualVelocity).2
            ((createSprint tx n sd ed pv d.actualVelocity).1 :: acc) hrest
        refine ⟨st', res, ?_, ?_⟩
        · simp only [runDefs, hv, eq_self_iff_true, if_true, hfa, createSprint]
          exact hrun
        · rw [hview, activeView_create, activeNames_create]
          simp [regenValidViews, hv, hmem, List.append_assoc]

/-- The names produced by `regenValidViews` avoid `seen` and repeat no
name. -/
theorem regenValidViews_names_nodup :
    ∀ (defs : List SprintData) (seen : List String), seen.Nodup →
      (seen ++ (regenValidViews seen defs).map (·.1)).Nodup := by
  intro defs
  induction defs with
  | nil => intro seen h; simpa [regenValidViews]
  | cons d rest ih =>
    intro seen h
    rcases hv : getValid d with _ | ⟨n, sd, ed, pv⟩
    · simpa [regenValidViews, hv]
    · by_cases hmem : n ∈ seen
      · simpa [regenValidViews, hv, hmem] using ih seen h
      · have h2 : (seen ++ [n]).Nodup := by
          rw [List.nodup_append]
          refine ⟨h, List.nodup_singleton n, ?_⟩
          intro a ha hb
          rw [List.mem_singleton.mp hb] at ha
          exact hmem ha
        have h3 := ih (seen ++ [n]) h2
        simpa [regenValidViews, hv, hmem, List.append_assoc] using h3

/-- C9: regeneration is idempotent.  If one regeneration run of a batch
succeeds, running the identical batch again (after the first completes)
succeeds as well and leaves exactly the same set of non-archived sprint
rows — same names, dates and velocities, no duplicate rows — and live
sprint names are unique after each run. -/
theorem regeneration_idempotent :
    ∀ (store : Store) (defs : List SprintData) (s1 : Store) (r1 : List Sprint),
      sprintsBatchTx store defs true = .ok (s1, r1) →
      ∃ s2 r2, sprintsBatchTx s1 defs true = .ok (s2, r2) ∧
        activeView s2 = activeView s1 ∧
        (activeNames s1).Nodup ∧ (activeNames s2).Nodup := by
  intro store defs s1 r1 h1
  have hval : ∀ d ∈ defs, (getValid d).isSome :=
    runDefs_ok_allValid defs true _ [] _ _ (by simpa [sprintsBatchTx] using h1)
  have hclearF : ∀ l : List Sprint,
      (l.filter (·.archived)).filter (fun s => !s.archived) = [] := by
    intro l
    induction l with
    | nil => rfl
    | cons a l ihl =>
      by_cases ha : a.archived = true <;> simp [ha, ihl]
  have hclearV : ∀ st : Store, activeView (clearNonArchived st) = [] := by
    intro st
    simp [activeView, clearNonArchived, hclearF]
  have hclearN : ∀ st : Store, activeNames (clearNonArchived st) = [] := by
    intro st
    rw [activeNames_eq, hclearV]
    rfl
  have hrunAny : ∀ st : Store, ∃ s' r',
      sprintsBatchTx st defs true = .ok (s', r') ∧
      activeView s' = regenValidViews [] defs := by
    intro st
    obtain ⟨s', r', hrun, hview⟩ := runDefs_regen_view defs (clearNonArchived st) [] hval
    refine ⟨s', r', by simpa [sprintsBatchTx] using hrun, ?_⟩
    rw [hview, hclearV st, hclearN st]
    simp
  obtain ⟨s1', r1', hrun1, hview1⟩ := hrunAny store
  obtain ⟨rfl, -⟩ : s1' = s1 ∧ r1' = r1 := by
    have := hrun1.symm.trans h1
    simpa using this
  obtain ⟨s2, r2, hrun2, hview2⟩ := hrunAny s1'
  have hnodupNames : ((regenValidViews [] defs).map (·.1)).Nodup := by
    simpa using regenValidViews_names_nodup defs [] List.nodup_nil
  refine ⟨s2, r2, hrun2, ?_, ?_, ?_⟩
  · rw [hview2, hview1]
  · rw [activeNames_eq, hview1]
    exact hnodupNames
  · rw [activeNames_eq, hview2]
    exact hnodupNames

/-- Witness for `regeneration_idempotent` on a one-definition batch. -/
theorem regeneration_idempotent_witness :
    activeView (⟨[⟨2, "A", 0, 10, 5, none, false⟩], 3⟩ : Store) =
      activeView (⟨[⟨1, "A", 0, 10, 5, none, false⟩], 2⟩ : Store) ∧
    (activeNames (⟨[⟨1, "A", 0, 10, 5, none, false⟩], 2⟩ : Store)).Nodup := by
  obtain ⟨s2, r2, hrun, hview, hn1, hn2⟩ :=
    regeneration_idempotent ⟨[], 1⟩ [⟨some "A", some 0, some 10, some 5, none⟩]
      ⟨[⟨1, "A", 0, 10, 5, none, false⟩], 2⟩ [⟨1, "A", 0, 10, 5, none, false⟩] (by rfl)
  have hcalc : sprintsBatchTx (⟨[⟨1, "A", 0, 10, 5, none, false⟩], 2⟩ : Store)
      [⟨some "A", some 0, some 10, some 5, none⟩] true =
      .ok (⟨[⟨2, "A", 0, 10, 5, none, false⟩], 3⟩, [⟨2, "A", 0, 10, 5, none, false⟩]) := rfl
  rw [hcalc] at hrun
  have hpair : ((⟨[⟨2, "A", 0, 10, 5, none, false⟩], 3⟩ : Store),
      ([⟨2, "A", 0, 10, 5, none, false⟩] : List Sprint)) = (s2, r2) := by
    simpa using hrun
  have hs2 : s2 = ⟨[⟨2, "A", 0, 10, 5, none, false⟩], 3⟩ :=
    (congrArg Prod.fst hpair).symm
  rw [hs2] at hview
  exact ⟨hview, hn1⟩

/-! ## C8 — epic deduplication -/

/-- `find?` distributes over append. -/
theorem find?_append_eq {α : Type} (p : α → Bool) :
    ∀ (l₁ l₂ : List α), (l₁ ++ l₂).find? p =
      (match l₁.find? p with
        | some x => some x
        | none => l₂.find? p) := by
  intro l₁ l₂
  induction l₁ with
  | nil => simp
  | cons a l ih =>
    rcases hpa : p a
    · simpa [List.find?_cons, hpa] using ih
    · simp [List.find?_cons, hpa]

/-- Replacing entries of other keys does not change a lookup. -/
theorem find?_map_replace_other {κ α : Type} [DecidableEq κ] (k k' : κ) (v : α)
    (hk : k' ≠ k) :
    ∀ m : List (κ × α),
      (m.map (fun p => if p.1 = k then (k, v) else p)).find? (fun p => p.1 = k') =
        m.find? (fun p => p.1 = k') := by
  intro m
  induction m with
  | nil => rfl
  | cons p rest ih =>
    by_cases hp : p.1 = k
    · have h1 : ((k, v).1 = k') = False := by simp [Ne.symm hk]
      have h2 : (p.1 = k') = False := by simp [hp, Ne.symm hk]
      simp only [List.map_cons, if_pos hp, List.find?_cons]
      rw [show (decide ((k, v).1 = k')) = false by simp [Ne.symm hk],
        show (decide (p.1 = k')) = false by simp [hp, Ne.symm hk]]
      exact ih
    · simp only [List.map_cons, if_neg hp, List.find?_cons]
      rcases hpk : decide (p.1 = k')
      · exact ih
      · rfl

/-- Lookup after `jmapSet` at the written key. -/
theorem jmapGet_set_self {κ α : Type} [DecidableEq κ] :
    ∀ (m : List (κ × α)) (k : κ) (v : α), jmapGet (jmapSet m k v) k = some v := by
  intro m k v
  induction m with
  | nil => simp [jmapSet, jmapGet]
  | cons p rest ih =>
    by_cases hp : p.1 = k
    · simp [jmapSet, jmapGet, List.any_cons, hp, List.find?_cons]
    · by_cases hrest : rest.any (fun q => q.1 = k) = true
      · rw [jmapSet, if_pos (by simp [List.any_cons, hp, hrest])]
        rw [jmapSet, if_pos hrest] at ih
        simp only [jmapGet, List.map_cons, if_neg hp, List.find?_cons]
        rw [show (decide (p.1 = k)) = false by simp [hp]]
        exact ih
      · have hrest' : rest.any (fun q => q.1 = k) = false := by
          rcases hb : rest.any (fun q => q.1 = k)
          · rfl
          · exact absurd hb hrest
        have hall : (p :: rest).any (fun q => q.1 = k) = false := by
          rw [List.any_cons, hrest']
          simp [hp]
        rw [jmapSet, if_neg (by simp [hall])]
        have hfr : rest.find? (fun q => decide (q.1 = k)) = none := by
          refine List.find?_eq_none.mpr ?_
          intro x hx
          exact List.any_eq_false.mp hrest' x hx
        simp only [jmapGet, List.cons_append, List.find?_cons]
        rw [show (decide (p.1 = k)) = false by simp [hp], find?_append_eq, hfr]
        simp [List.find?_cons]

/-- Lookup after `jmapSet` at a different key. -/
theorem jmapGet_set_other {κ α : Type} [DecidableEq κ] (k k' : κ) (v : α)
    (hk : k' ≠ k) :
    ∀ m : List (κ × α), jmapGet (jmapSet m k v) k' = jmapGet m k' := by
  intro m
  unfold jmapSet
  by_cases hany : m.any (fun p => p.1 = k) = true
  · rw [if_pos hany]
    unfold jmapGet
    rw [find?_map_replace_other k k' v hk m]
  · rw [if_neg hany]
    unfold jmapGet
    rw [find?_append_eq]
    rcases hf : m.find? (fun p => decide (p.1 = k'))
    · rw [hf]
      have : (decide ((k, v).1 = k')) = false := by simp [Ne.symm hk]
      simp [List.find?_cons, this]
    · rw [hf]

/-- A lookup hit is a member of the association list. -/
theorem mem_of_jmapGet {κ α : Type} [DecidableEq κ] (m : List (κ × α)) (k : κ)
    (v : α) (h : jmapGet m k = some v) : (k, v) ∈ m := by
  unfold jmapGet at h
  rcases hf : m.find? (fun p => decide (p.1 = k)) with _ | p
  · rw [hf] at h
    cases h
  · rw [hf] at h
    have hv : p.2 = v := by simpa using h
    have hk : p.1 = k := by simpa using List.find?_some hf
    have := List.mem_of_find?_eq_some hf
    rw [← hk, ← hv]
    simpa using this

/-- With pairwise-distinct keys, membership determines the lookup. -/
theorem jmapGet_of_mem_nodup {κ α : Type} [DecidableEq κ] :
    ∀ (m : List (κ × α)) (k : κ) (v : α),
      (m.map (·.1)).Nodup → (k, v) ∈ m → jmapGet m k = some v := by
  intro m
  induction m with
  | nil => intro k v _ hm; simp at hm
  | cons p rest ih =>
    intro k v hnd hm
    have hnd1 : p.1 ∉ rest.map (·.1) := (List.nodup_cons.mp (by simpa using hnd)).1
    have hnd2 : (rest.map (·.1)).Nodup := (List.nodup_cons.mp (by simpa using hnd)).2
    rcases List.mem_cons.mp hm with heq | hmem
    · rw [← heq]
      simp [jmapGet, List.find?_cons]
    · have hkmem : k ∈ rest.map (·.1) := List.mem_map.mpr ⟨(k, v), hmem, rfl⟩
      have hp1 : p.1 ≠ k := fun hh => hnd1 (hh ▸ hkmem)
      simp only [jmapGet, List.find?_cons]
      rw [show (decide (p.1 = k)) = false by simp [hp1]]
      exact ih k v hnd2 hmem

/-- `jmapSet` preserves key distinctness. -/
theorem jmapSet_keys_nodup {κ α : Type} [DecidableEq κ] (m : List (κ × α))
    (k : κ) (v : α) (h : (m.map (·.1)).Nodup) :
    ((jmapSet m k v).map (·.1)).Nodup := by
  unfold jmapSet
  by_cases hany : m.any (fun p => p.1 = k) = true
  · rw [if_pos hany]
    have : ((m.map fun p => if p.1 = k then (k, v) else p).map (·.1)) = m.map (·.1) := by
      rw [List.map_map]
      refine List.map_congr_left ?_
      intro p _
      by_cases hp : p.1 = k <;> simp [hp, Function.comp]
    rw [this]
    exact h
  · rw [if_neg hany]
    rw [List.map_append]
    rw [List.nodup_append]
    refine ⟨h, by simp, ?_⟩
    intro a ha hb
    have hk : a = k := by simpa using hb
    subst hk
    obtain ⟨p, hp, hpk⟩ := List.mem_map.mp ha
    have hany' : m.any (fun p => p.1 = a) = false := by
      rcases hb2 : m.any (fun p => p.1 = a)
      · rfl
      · exact absurd hb2 hany
    have := List.any_eq_false.mp hany' p hp
    simp [hpk] at this

/-- One `epicStep` preserves the map invariant: distinct keys, every
entry is a processed record with maximal `createdAt` in its key group,
and absent keys have no processed record. -/
theorem epicStep_inv (m : List (Option String × WItem)) (processed : List WItem)
    (e : WItem)
    (hnd : (m.map (·.1)).Nodup)
    (hsome : ∀ k v, jmapGet m k = some v → v ∈ processed ∧ v.jiraId = k ∧
      ∀ y ∈ processed, y.jiraId = k → y.createdAt ≤ v.createdAt)
    (hnone : ∀ k, jmapGet m k = none → ∀ y ∈ processed, y.jiraId ≠ k) :
    ((epicStep m e).map (·.1)).Nodup ∧
    (∀ k v, jmapGet (epicStep m e) k = some v → v ∈ processed ++ [e] ∧ v.jiraId = k ∧
      ∀ y ∈ processed ++ [e], y.jiraId = k → y.createdAt ≤ v.createdAt) ∧
    (∀ k, jmapGet (epicStep m e) k = none → ∀ y ∈ processed ++ [e], y.jiraId ≠ k) := by
  have hset : ∀ (hbound : ∀ y ∈ processed, y.jiraId = e.jiraId → y.createdAt ≤ e.createdAt),
      ((jmapSet m e.jiraId e).map (·.1)).Nodup ∧
      (∀ k v, jmapGet (jmapSet m e.jiraId e) k = some v → v ∈ processed ++ [e] ∧
        v.jiraId = k ∧ ∀ y ∈ processed ++ [e], y.jiraId = k → y.createdAt ≤ v.createdAt) ∧
      (∀ k, jmapGet (jmapSet m e.jiraId e) k = none → ∀ y ∈ processed ++ [e], y.jiraId ≠ k) := by
    intro hbound
    refine ⟨jmapSet_keys_nodup m e.jiraId e hnd, ?_, ?_⟩
    · intro k v hkv
      by_cases hk : k = e.jiraId
      · subst hk
        rw [jmapGet_set_self] at hkv
        obtain rfl : e = v := by injection hkv
        refine ⟨by simp, rfl, ?_⟩
        intro y hy hyj
        rcases List.mem_append.mp hy with hyp | hye
        · exact hbound y hyp hyj
        · obtain rfl : y = e := by simpa using hye
          exact le_refl _
      · rw [jmapGet_set_other e.jiraId k e hk m] at hkv
        obtain ⟨h1, h2, h3⟩ := hsome k v hkv
        refine ⟨by simp [h1], h2, ?_⟩
        intro y hy hyj
        rcases List.mem_append.mp hy with hyp | hye
        · exact h3 y hyp hyj
        · obtain rfl : y = e := by simpa using hye
          exact absurd hyj.symm hk
    · intro k hkn y hy
      by_cases hk : k = e.jiraId
      · subst hk
        rw [jmapGet_set_self] at hkn
        cases hkn
      · rw [jmapGet_set_other e.jiraId k e hk m] at hkn
        rcases List.mem_append.mp hy with hyp | hye
        · exact hnone k hkn y hyp
        · obtain rfl : y = e := by simpa using hye
          intro hyj
          exact hk hyj.symm
  rcases hget : jmapGet m e.jiraId with _ | ex
  · simp only [epicStep, hget]
    exact hset (fun y hy hyj => absurd hyj (hnone _ hget y hy))
  · obtain ⟨hx1, hx2, hx3⟩ := hsome _ ex hget
    by_cases hlt : ex.createdAt < e.createdAt
    · simp only [epicStep, hget, if_pos hlt]
      exact hset (fun y hy hyj => le_of_lt (lt_of_le_of_lt (hx3 y hy hyj) hlt))
    · simp only [epicStep, hget, if_neg hlt]
      refine ⟨hnd, ?_, ?_⟩
      · intro k v hkv
        obtain ⟨h1, h2, h3⟩ := hsome k v hkv
        refine ⟨by simp [h1], h2, ?_⟩
        intro y hy hyj
        rcases List.mem_append.mp hy with hyp | hye
        · exact h3 y hyp hyj
        · have hye' : y = e := by simpa using hye
          have hk : k = e.jiraId := by rw [← hyj, hye']
          subst hk
          rw [hget] at hkv
          obtain rfl : ex = v := by injection hkv
          rw [hye']
          exact le_of_not_lt hlt
      · intro k hkn y hy
        rcases List.mem_append.mp hy with hyp | hye
        · exact hnone k hkn y hyp
        · obtain rfl : y = e := by simpa using hye
          intro hyj
          rw [← hyj] at hkn
          rw [hget] at hkn
          cases hkn

/-- The fold over the whole epic list maintains the invariant. -/
theorem buildEpicMap_fold_inv :
    ∀ (rest : List WItem) (m : List (Option String × WItem)) (processed : List WItem),
      (m.map (·.1)).Nodup →
      (∀ k v, jmapGet m k = some v → v ∈ processed ∧ v.jiraId = k ∧
        ∀ y ∈ processed, y.jiraId = k → y.createdAt ≤ v.createdAt) →
      (∀ k, jmapGet m k = none → ∀ y ∈ processed, y.jiraId ≠ k) →
      (((rest.foldl epicStep m).map (·.1)).Nodup ∧
       (∀ k v, jmapGet (rest.foldl epicStep m) k = some v →
          v ∈ processed ++ rest ∧ v.jiraId = k ∧
          ∀ y ∈ processed ++ rest, y.jiraId = k → y.createdAt ≤ v.createdAt) ∧
       (∀ k, jmapGet (rest.foldl epicStep m) k = none →
          ∀ y ∈ processed ++ rest, y.jiraId ≠ k)) := by
  intro rest
  induction rest with
  | nil =>
    intro m processed h1 h2 h3
    simpa using ⟨h1, h2, h3⟩
  | cons e rest' ih =>
    intro m processed h1 h2 h3
    obtain ⟨g1, g2, g3⟩ := epicStep_inv m processed e h1 h2 h3
    have := ih (epicStep m e) (processed ++ [e]) g1 g2 g3
    simpa [List.append_assoc] using this

/-- The invariant for `buildEpicMap` itself. -/
theorem buildEpicMap_spec (epics : List WItem) :
    ((buildEpicMap epics).map (·.1)).Nodup ∧
    (∀ k v, jmapGet (buildEpicMap epics) k = some v → v ∈ epics ∧ v.jiraId = k ∧
      ∀ y ∈ epics, y.jiraId = k → y.createdAt ≤ v.createdAt) ∧
    (∀ k, jmapGet (buildEpicMap epics) k = none → ∀ y ∈ epics, y.jiraId ≠ k) := by
  have h := buildEpicMap_fold_inv epics [] []
    (by simp)
    (by intro k v hkv; simp [jmapGet] at hkv)
    (by intro k _ y hy; simp at hy)
  simpa [buildEpicMap] using h

/-- Each output entry carries its source item unchanged. -/
theorem toOutItem_item (all : List WItem) (x : WItem) : (toOutItem all x).item = x := by
  unfold toOutItem
  split <;> rfl

/-- A record that is not epic-flagged always passes the output filter. -/
theorem keepWorkItem_nonEpic (dIds : List String) (dJiras : List (Option String))
    (idj : List (String × Option String)) (it : WItem) (h : it.isEpic = false) :
    keepWorkItem dIds dJiras idj it = true := by
  unfold keepWorkItem
  simp only [h, Bool.false_and, Bool.false_eq_true, if_false]
  split <;> rfl

/-- C8 (counterexample): two epics `e1` (created at 1) and `e2` (created
at 2) share the external id `EP-1`; a non-epic child references the
*discarded* duplicate's internal id `e1`.  Deduplication keeps exactly
the later-created `e2` and the child is still included in the output —
but only as a top-level item: the surviving epic's entry has no
`children` grouping at all, because the grouping match compares against
the survivor's own internal id `e2` and external id `EP-1`, neither of
which is the child's parent reference `e1`. -/
theorem epic_dedup_grouping_counterexample :
    getWorkItemsOutput
        [⟨"e1", some "EP-1", true, none, 1, "Epic v1"⟩,
         ⟨"e2", some "EP-1", true, none, 2, "Epic v2"⟩,
         ⟨"c1", some "T-1", false, some "e1", 3, "Child"⟩] =
      [⟨⟨"e2", some "EP-1", true, none, 2, "Epic v2"⟩, none⟩,
       ⟨⟨"c1", some "T-1", false, some "e1", 3, "Child"⟩, none⟩] ∧
    (1 : ℤ) < 2 ∧
    (some "e1" ≠ some "e2") ∧
    (some "e1" ≠ (some "EP-1" : Option String)) := by
  exact ⟨by decide, by decide, by decide, by decide⟩

/-- C8 (amended): on a store whose internal ids are distinct, (1) among
epic-flagged records sharing an external id, exactly the strictly
latest-created one appears in the output (an earlier duplicate is
dropped); (2) every non-epic record is always included in the output as
a top-level item — in particular one whose parent reference is a
discarded duplicate's internal id, since inclusion resolves through the
external ids of *all* epics; but (3) an epic's `children` grouping lists
only records whose parent reference equals the surviving epic's own
internal id or external id — a child referencing a discarded duplicate's
internal id is not re-linked into the survivor's grouping. -/
theorem epic_dedup_amended :
    ∀ (items : List WItem),
      ((items.map (·.id)).Nodup →
        ∀ e ∈ items, e.isEpic = true →
          ((∀ y ∈ items, y.isEpic = true → y.jiraId = e.jiraId → y ≠ e →
              y.createdAt < e.createdAt) →
            ∃ o ∈ getWorkItemsOutput items, o.item = e) ∧
          (e.epicId = none →
            (∃ y ∈ items, y.isEpic = true ∧ y.jiraId = e.jiraId ∧
              e.createdAt < y.createdAt) →
            ∀ o ∈ getWorkItemsOutput items, o.item ≠ e)) ∧
      (∀ c ∈ items, c.isEpic = false →
        WItemOut.mk c none ∈ getWorkItemsOutput items) ∧
      (∀ o ∈ getWorkItemsOutput items, ∀ cl, o.children = some cl →
        ∀ c ∈ cl, c.epicId = some o.item.id ∨ c.epicId = o.item.jiraId) := by
  intro items
  obtain ⟨hndk, hsomeI, hnoneI⟩ := buildEpicMap_spec (items.filter (·.isEpic))
  refine ⟨?_, ?_, ?_⟩
  · intro hnodup e he heEpic
    have heMem : e ∈ items.filter (·.isEpic) := List.mem_filter.mpr ⟨he, by simp [heEpic]⟩
    constructor
    · intro hmax
      rcases hget : jmapGet (buildEpicMap (items.filter (·.isEpic))) e.jiraId with _ | v
      · exact absurd rfl (hnoneI _ hget e heMem)
      · obtain ⟨hv1, hv2, hv3⟩ := hsomeI _ v hget
        have hveq : v = e := by
          by_cases hve : v = e
          · exact hve
          · have hvItems : v ∈ items := (List.mem_filter.mp hv1).1
            have hvEpic : v.isEpic = true := by simpa using (List.mem_filter.mp hv1).2
            have hlt := hmax v hvItems hvEpic hv2 hve
            have hle := hv3 e heMem rfl
            omega
        subst hveq
        have hmm : (v.jiraId, v) ∈ buildEpicMap (items.filter (·.isEpic)) :=
          mem_of_jmapGet _ _ _ hget
        have hidmem : v.id ∈
            ((buildEpicMap (items.filter (·.isEpic))).map (·.2)).map (·.id) :=
          List.mem_map.mpr ⟨v, List.mem_map.mpr ⟨(v.jiraId, v), hmm, rfl⟩, rfl⟩
        have hkeep : keepWorkItem
            (((buildEpicMap (items.filter (·.isEpic))).map (·.2)).map (·.id))
            (((buildEpicMap (items.filter (·.isEpic))).map (·.2)).map (·.jiraId))
            (buildIdToJira (items.filter (·.isEpic))) v = true := by
          rcases hep : v.epicId with _ | pid <;>
            simp [keepWorkItem, hep, heEpic, hidmem, ite_self] <;>
            first
              | exact ⟨v.jiraId, v, hmm, rfl⟩
              | exact Or.inr ⟨v.jiraId, v, hmm, rfl⟩
        refine ⟨toOutItem items v, ?_, toOutItem_item items v⟩
        simp only [getWorkItemsOutput]
        exact List.mem_map.mpr ⟨v, List.mem_filter.mpr ⟨he, hkeep⟩, rfl⟩
    · intro hepNone hlater o ho hoe
      simp only [getWorkItemsOutput] at ho
      obtain ⟨x, hxf, hxo⟩ := List.mem_map.mp ho
      obtain ⟨hxItems, hxKeep⟩ := List.mem_filter.mp hxf
      have hxe : x = e := by rw [← hoe, ← hxo, toOutItem_item]
      rw [hxe] at hxKeep
      have hc : (((buildEpicMap (items.filter (·.isEpic))).map (·.2)).map
          (·.id)).contains e.id = true := by
        rcases hcc : (((buildEpicMap (items.filter (·.isEpic))).map (·.2)).map
            (·.id)).contains e.id
        · exfalso
          unfold keepWorkItem at hxKeep
          simp only [hepNone, heEpic, hcc] at hxKeep
          simp at hxKeep
        · exact hcc
      obtain ⟨v, hvmem, hvid⟩ := List.mem_map.mp (List.mem_of_elem_eq_true hc)
      obtain ⟨⟨k, v'⟩, hkv, hveq⟩ := List.mem_map.mp hvmem
      rw [← hveq] at hvid
      have hgv : jmapGet (buildEpicMap (items.filter (·.isEpic))) k = some v' :=
        jmapGet_of_mem_nodup _ _ _ hndk hkv
      obtain ⟨hv1, hv2, hv3⟩ := hsomeI k v' hgv
      have hvItems : v' ∈ items := (List.mem_filter.mp hv1).1
      have hveq2 : v' = e := List.inj_on_of_nodup_map hnodup hvItems he hvid
      rw [hveq2] at hv2 hv3
      obtain ⟨y, hy, hyEpic, hyJ, hyLt⟩ := hlater
      have hyMem : y ∈ items.filter (·.isEpic) := List.mem_filter.mpr ⟨hy, by simp [hyEpic]⟩
      have hle := hv3 y hyMem (by rw [hyJ, hv2])
      omega
  · intro c hc hcep
    simp only [getWorkItemsOutput]
    refine List.mem_map.mpr ⟨c,
      List.mem_filter.mpr ⟨hc, keepWorkItem_nonEpic _ _ _ c hcep⟩, ?_⟩
    simp [toOutItem, hcep]
  · intro o ho cl hcl c hcmem
    simp only [getWorkItemsOutput] at ho
    obtain ⟨x, hxf, hxo⟩ := List.mem_map.mp ho
    rw [← hxo] at hcl
    rw [← hxo, toOutItem_item]
    by_cases hx : x.isEpic = true
    · simp only [toOutItem, hx, if_true] at hcl
      rcases hemp : (items.filter
          (fun ch => ch.epicId = some x.id || ch.epicId = x.jiraId)).isEmpty
      · rw [hemp] at hcl
        simp only [Bool.false_eq_true, if_false] at hcl
        obtain rfl : items.filter
            (fun ch => ch.epicId = some x.id || ch.epicId = x.jiraId) = cl := by
          injection hcl
        have hpred := (List.mem_filter.mp hcmem).2
        simpa using hpred
      · rw [hemp] at hcl
        simp at hcl
    · simp only [toOutItem, hx, Bool.false_eq_true, if_false] at hcl
      cases hcl

/-- Witness for `epic_dedup_amended` on the duplicate-epic store. -/
theorem epic_dedup_amended_witness :
    (WItemOut.mk ⟨"c1", some "T-1", false, some "e1", 3, "Child"⟩ none ∈
      getWorkItemsOutput
        [⟨"e1", some "EP-1", true, none, 1, "Epic v1"⟩,
         ⟨"e2", some "EP-1", true, none, 2, "Epic v2"⟩,
         ⟨"c1", some "T-1", false, some "e1", 3, "Child"⟩]) ∧
    (WItemOut.mk ⟨"e2", some "EP-1", true, none, 2, "Epic v2"⟩ none ∈
      getWorkItemsOutput
        [⟨"e1", some "EP-1", true, none, 1, "Epic v1"⟩,
         ⟨"e2", some "EP-1", true, none, 2, "Epic v2"⟩,
         ⟨"c1", some "T-1", false, some "e1", 3, "Child"⟩]) := by
  constructor
  · exact (epic_dedup_amended
      [⟨"e1", some "EP-1", true, none, 1, "Epic v1"⟩,
       ⟨"e2", some "EP-1", true, none, 2, "Epic v2"⟩,
       ⟨"c1", some "T-1", false, some "e1", 3, "Child"⟩]).2.1
      ⟨"c1", some "T-1", false, some "e1", 3, "Child"⟩ (by decide) rfl
  · obtain ⟨o, ho, hoi⟩ := ((epic_dedup_amended
      [⟨"e1", some "EP-1", true, none, 1, "Epic v1"⟩,
       ⟨"e2", some "EP-1", true, none, 2, "Epic v2"⟩,
       ⟨"c1", some "T-1", false, some "e1", 3, "Child"⟩]).1
      (by decide) ⟨"e2", some "EP-1", true, none, 2, "Epic v2"⟩ (by decide) rfl).1
      (by decide)
    have hout : getWorkItemsOutput
        [⟨"e1", some "EP-1", true, none, 1, "Epic v1"⟩,
         ⟨"e2", some "EP-1", true, none, 2, "Epic v2"⟩,
         ⟨"c1", some "T-1", false, some "e1", 3, "Child"⟩] =
        [⟨⟨"e2", some "EP-1", true, none, 2, "Epic v2"⟩, none⟩,
         ⟨⟨"c1", some "T-1", false, some "e1", 3, "Child"⟩, none⟩] := by decide
    rw [hout] at ho ⊢
    rcases List.mem_cons.mp ho with rfl | ho2
    · exact List.mem_cons_self _ _
    · have : o = ⟨⟨"c1", some "T-1", false, some "e1", 3, "Child"⟩, none⟩ := by
        simpa using ho2
      rw [this] at hoi
      simp at hoi

end ResourcePlanner
